import Mathlib

/-!
Verification of the Indian-Legal-Document-Analyzer repository.

The Python modules under scrutiny (contract_risk_analyzer.py,
citation_analyzer.py, legal_analyzer_tools.py, document_comparison.py,
legal_document_comparison.py) are shallowly embedded below.  Text is a
Lean String, numbers arising from Python int arithmetic are Nat, and the
float arithmetic of the scores is modelled exactly over Rat.  The regular
expressions used by the code are embedded as abstract syntax trees and run
by a backtracking matcher that follows Python re semantics (leftmost match,
greedy quantifiers, alternation tries the left branch first, finditer scans
non-overlapping matches left to right).  The matcher carries explicit fuel
so that every definition is a total, executable function.
-/

set_option maxRecDepth 8000

namespace LegalAnalyzer

/-- Python ASCII str.lower on one character (Char.toLower is exactly the
ASCII case fold). -/
def pyLowerChar (c : Char) : Char := c.toLower

/-- Python str.lower (ASCII texts). -/
def pyLower (s : String) : String := String.mk (s.data.map pyLowerChar)

/-- Python \s character class (ASCII whitespace). -/
def isSpaceChar (c : Char) : Bool :=
  c = ' ' || c = '\t' || c = '\n' || c = '\r' || c = '\x0b' || c = '\x0c'

/-- Python \w character class (ASCII word character). -/
def isWordChar (c : Char) : Bool := c.isAlphanum || c = '_'

/-- Python str.strip(): remove leading and trailing whitespace. -/
def pyStrip (s : String) : String :=
  String.mk ((s.data.dropWhile isSpaceChar).reverse.dropWhile isSpaceChar |>.reverse)

/-- The slice text[s:e] of a text given as a character list. -/
def sub (t : List Char) (s e : Nat) : String :=
  String.mk ((t.drop s).take (e - s))

/-- Whether position i of the text holds a word character. -/
def wordAt (t : List Char) (i : Nat) : Bool :=
  if h : i < t.length then isWordChar (t.get ⟨i, h⟩) else false

/-- Python regex \b: a word boundary sits at pos iff exactly one of the two
adjacent positions holds a word character (outside the text counts as
non-word). -/
def isBoundary (t : List Char) (pos : Nat) : Bool :=
  (if pos = 0 then false else wordAt t (pos - 1)) != wordAt t pos

/-- Regular-expression abstract syntax: the fragment of Python re the
repository uses.  cls carries the character predicate of a class, group
records a capturing group with its Python group number. -/
inductive Rx where
  | eps : Rx
  | cls (p : Char → Bool) : Rx
  | cat (r s : Rx) : Rx
  | alt (r s : Rx) : Rx
  | star (r : Rx) : Rx
  | wordB : Rx
  | group (n : Nat) (r : Rx) : Rx

/-- Size of a regex tree, used to bound the matcher's fuel. -/
def rxSize : Rx → Nat
  | .eps => 1
  | .cls _ => 1
  | .cat r s => rxSize r + rxSize s + 1
  | .alt r s => rxSize r + rxSize s + 1
  | .star r => rxSize r + 1
  | .wordB => 1
  | .group _ r => rxSize r + 1

/-- Recorded capture spans: (group number, start, end), most recent first. -/
abbrev Caps := List (Nat × Nat × Nat)

/-- The backtracking matcher in continuation style.  Mirrors Python re
preference order: alt tries the left alternative first, star is greedy
(tries one more repetition before stopping), a star repetition must make
progress (Python breaks zero-width repetition loops).  Fuel bounds the
recursion depth; the top-level entry points supply enough fuel for any
pattern of the repository on any text. -/
def mrun (t : List Char) :
    Nat → Rx → Nat → Caps → (Nat → Caps → Option (Nat × Caps)) → Option (Nat × Caps)
  | 0, _, _, _, _ => none
  | fuel + 1, r, pos, caps, k =>
    match r with
    | .eps => k pos caps
    | .cls p =>
      if h : pos < t.length then
        if p (t.get ⟨pos, h⟩) then k (pos + 1) caps else none
      else none
    | .cat r1 r2 => mrun t fuel r1 pos caps (fun p c => mrun t fuel r2 p c k)
    | .alt r1 r2 =>
      match mrun t fuel r1 pos caps k with
      | some res => some res
      | none => mrun t fuel r2 pos caps k
    | .star r1 =>
      match mrun t fuel r1 pos caps
          (fun p c => if pos < p then mrun t fuel (.star r1) p c k else none) with
      | some res => some res
      | none => k pos caps
    | .wordB => if isBoundary t pos then k pos caps else none
    | .group n r1 => mrun t fuel r1 pos caps (fun p c => k p ((n, pos, p) :: c))

/-- Fuel that bounds the matcher's recursion depth for our patterns. -/
def mfuel (r : Rx) (t : List Char) : Nat :=
  (rxSize r + 2) * (t.length + 2) + 1000

/-- Try to match r at a fixed position; some (endPos, captures) on success. -/
def tryMatch (t : List Char) (r : Rx) (pos : Nat) : Option (Nat × Caps) :=
  mrun t (mfuel r t) r pos [] (fun p c => some (p, c))

/-- Scan positions pos, pos+1, ... for the first match: Python re.search
restricted to start at pos.  rem counts the positions still to try. -/
def searchFromAux (t : List Char) (r : Rx) : Nat → Nat → Option (Nat × Nat × Caps)
  | _, 0 => none
  | pos, rem + 1 =>
    match tryMatch t r pos with
    | some (e, c) => some (pos, e, c)
    | none => searchFromAux t r (pos + 1) rem

/-- Python re.search starting at pos: leftmost match (start, end, captures). -/
def searchFrom (t : List Char) (r : Rx) (pos : Nat) : Option (Nat × Nat × Caps) :=
  searchFromAux t r pos (t.length + 1 - pos)

/-- Python re.search over the whole text. -/
def search (t : List Char) (r : Rx) : Option (Nat × Nat × Caps) :=
  searchFrom t r 0

/-- Python re.finditer: non-overlapping matches scanning left to right; an
empty match advances the scan position by one. -/
def findAllAux (t : List Char) (r : Rx) : Nat → Nat → List (Nat × Nat × Caps)
  | _, 0 => []
  | pos, rem + 1 =>
    match searchFrom t r pos with
    | none => []
    | some (s, e, c) => (s, e, c) :: findAllAux t r (if e = s then e + 1 else e) rem

/-- All matches of r in t, in scan order. -/
def findAll (t : List Char) (r : Rx) : List (Nat × Nat × Caps) :=
  findAllAux t r 0 (t.length + 2)

/-- The text captured by group n in a match (Python match.group(n)); the
empty string when the group did not participate. -/
def groupStr (t : List Char) (caps : Caps) (n : Nat) : String :=
  match caps.find? (fun c => c.1 = n) with
  | some c => sub t c.2.1 c.2.2
  | none => ""

/-- Python re.findall(pattern, text) given the pattern's number of capturing
groups: the full match when there are none, group 1 when there is one, and
for several groups the tuple — which extract_citations joins with a space
after dropping empty entries. -/
def findallStrings (t : List Char) (r : Rx) (ngroups : Nat) : List String :=
  (findAll t r).map (fun m =>
    if ngroups = 0 then sub t m.1 m.2.1
    else if ngroups = 1 then groupStr t m.2.2 1
    else String.intercalate " "
      (((List.range ngroups).map (fun i => groupStr t m.2.2 (i + 1))).filter (· ≠ "")))

/-- Case-sensitive literal character. -/
def litC (c : Char) : Rx := .cls (fun x => x = c)

/-- Case-insensitive literal character (re.IGNORECASE). -/
def litCI (c : Char) : Rx := .cls (fun x => x.toLower = c.toLower)

/-- Concatenation of a list of regexes. -/
def catList : List Rx → Rx
  | [] => .eps
  | [r] => r
  | r :: rs => .cat r (catList rs)

/-- Case-sensitive literal string. -/
def lits (s : String) : Rx := catList (s.data.map litC)

/-- Case-insensitive literal string. -/
def litsCI (s : String) : Rx := catList (s.data.map litCI)

/-- Greedy plus: one repetition then a greedy star. -/
def rplus (r : Rx) : Rx := .cat r (.star r)

/-- Greedy option (r?): try r first, then the empty alternative. -/
def ropt (r : Rx) : Rx := .alt r .eps

/-- Exactly n repetitions. -/
def repN : Nat → Rx → Rx
  | 0, _ => .eps
  | n + 1, r => .cat r (repN n r)

/-- Greedy at-most-n repetitions. -/
def upTo : Nat → Rx → Rx
  | 0, _ => .eps
  | n + 1, r => .alt (.cat r (upTo n r)) .eps

/-- Greedy between-1-and-n repetitions (the pattern uses .\x7b1,50\x7d). -/
def rep1to (n : Nat) (r : Rx) : Rx := .cat r (upTo (n - 1) r)

/-- The . class (any character but a newline; no DOTALL in the embedded
patterns). -/
def dotC : Rx := .cls (fun c => c != '\n')

/-- The \d class. -/
def digitC : Rx := .cls Char.isDigit

/-- The \s class. -/
def spaceC : Rx := .cls isSpaceChar

/-- The [A-Z] class (patterns without IGNORECASE). -/
def upperC : Rx := .cls Char.isUpper

/-- The [a-z] class (patterns without IGNORECASE). -/
def lowerC : Rx := .cls Char.isLower

/-! ## contract_risk_analyzer.py -/

/-- The risk_patterns table of ContractRiskAnalyzer.__init__, in Python dict
order (missing_provisions is present with an empty pattern list and is
skipped by the analysis loop, exactly as in the source). -/
def risk_patterns : List (String × List String) :=
  [("ambiguity",
    ["may", "might", "could", "reasonable efforts", "commercially reasonable",
     "best efforts", "good faith", "timely manner", "promptly", "substantial",
     "material", "adequate", "appropriate", "suitable", "satisfactory"]),
   ("one_sided_terms",
    ["sole discretion", "unilateral", "unilaterally", "at any time",
     "without notice", "without cause", "without liability", "no liability",
     "shall not be liable", "in its discretion", "may determine"]),
   ("liability_issues",
    ["unlimited liability", "sole risk", "indemnify.*all", "indemnify.*any",
     "defend and hold harmless", "to the fullest extent", "unlimited indemnification",
     "including but not limited to", "for any reason"]),
   ("missing_provisions", []),
   ("termination_risks",
    ["immediate termination", "without notice", "terminate immediately",
     "at its convenience", "without cause", "for any reason", "change of control"]),
   ("confidentiality_risks",
    ["perpetual confidentiality", "unlimited confidentiality", "forever",
     "no time limit", "without restriction", "sole property"]),
   ("ip_risks",
    ["assign all rights", "assign all intellectual property", "work for hire",
     "exclusively own", "transfer all", "irrevocably assign"])]

/-- The characters analyze_contract tests for to decide whether a pattern is
a regex or a plain keyword. -/
def regexSpecials : List Char :=
  ['.', '*', '+', '?', '(', ')', '[', ']', '\x7b', '\x7d', '|', '^', '$']

/-- Whether a risk pattern contains regex syntax (the any(...) test of
analyze_contract). -/
def hasRegexChar (p : String) : Bool := p.data.any (fun c => regexSpecials.contains c)

/-- Compile one risk pattern as analyze_contract does: patterns with regex
syntax run as regexes (the only two in the table are indemnify.*all and
indemnify.*any, compiled here by hand), plain keywords are wrapped in word
boundaries; both are matched with re.IGNORECASE. -/
def compileRisk (p : String) : Rx :=
  if hasRegexChar p then
    if p = "indemnify.*all" then catList [litsCI "indemnify", .star dotC, litsCI "all"]
    else if p = "indemnify.*any" then catList [litsCI "indemnify", .star dotC, litsCI "any"]
    else .eps
  else .cat .wordB (.cat (litsCI p) .wordB)

/-- One recorded risk match: the matched term and 100 characters of
surrounding context, as analyze_contract stores them. -/
structure RiskMatch where
  term : String
  context : String

/-- The matches of one category's pattern list in the text, in the order
analyze_contract appends them (pattern by pattern, match by match);
category_score of the source equals the length of this list. -/
def riskMatchesOf (text : String) (patterns : List String) : List RiskMatch :=
  patterns.flatMap (fun p =>
    (findAll text.data (compileRisk p)).map (fun m =>
      ⟨sub text.data m.1 m.2.1,
       sub text.data (m.1 - 50) (min text.data.length (m.2.1 + 50))⟩))

/-- The standard_provisions list of ContractRiskAnalyzer. -/
def standard_provisions : List String :=
  ["termination", "confidentiality", "intellectual property",
   "indemnification", "governing law", "dispute resolution",
   "force majeure", "assignment", "notices", "entire agreement"]

/-- The synonyms table of _get_provision_synonyms. -/
def provision_synonyms (provision : String) : List String :=
  if provision = "termination" then ["cancellation", "expiration", "discontinuance"]
  else if provision = "confidentiality" then
    ["non-disclosure", "private information", "proprietary information"]
  else if provision = "intellectual property" then
    ["ip rights", "copyrights", "patents", "trademarks"]
  else if provision = "indemnification" then ["indemnity", "hold harmless", "defend"]
  else if provision = "governing law" then
    ["applicable law", "jurisdiction", "choice of law"]
  else if provision = "dispute resolution" then
    ["arbitration", "mediation", "settlement of disputes"]
  else if provision = "force majeure" then
    ["act of god", "unforeseen circumstances", "beyond control"]
  else if provision = "assignment" then ["transfer of rights", "successors", "assigns"]
  else if provision = "notices" then ["notification", "communication"]
  else if provision = "entire agreement" then
    ["complete agreement", "integration", "merger clause"]
  else []

/-- re.search of a word-bounded escaped keyword in an (already lowered)
text, as find_missing_provisions uses it. -/
def wordSearch (kw : String) (t : List Char) : Bool :=
  (search t (.cat .wordB (.cat (lits kw) .wordB))).isSome

/-- find_missing_provisions: a provision is missing when neither its own
name nor any of its synonyms occurs word-bounded in the lowered text; the
missing ones are returned in standard_provisions order. -/
def find_missing_provisions (text : String) : List String :=
  let tl := (pyLower text).data
  standard_provisions.filter (fun provision =>
    !(wordSearch (pyLower provision) tl
      || (provision_synonyms (pyLower provision)).any (fun s => wordSearch s tl)))

/-- The analysis record analyze_contract builds (the fields the claims are
about; risk_categories holds the (category, score, match count) triples in
loop order). -/
structure RiskAnalysis where
  risk_score : ℚ
  risk_categories : List (String × Nat × Nat)
  ambiguous_clauses : List RiskMatch
  one_sided_terms : List RiskMatch
  liability_issues : List RiskMatch
  missing_provisions : List String
  other_issues : List RiskMatch

/-- One iteration of the category loop of analyze_contract: skip
missing_provisions, record the matches in the category's slot (the three
named ones, the rest into other_issues) and append the capped score. -/
def stepCategory (text : String) (a : RiskAnalysis) (cat : String × List String) :
    RiskAnalysis :=
  if cat.1 = "missing_provisions" then a
  else
    let ms := riskMatchesOf text cat.2
    let score := min 100 (ms.length * 10)
    ⟨a.risk_score,
     a.risk_categories ++ [(cat.1, score, ms.length)],
     if cat.1 = "ambiguity" then ms else a.ambiguous_clauses,
     if cat.1 = "one_sided_terms" then ms else a.one_sided_terms,
     if cat.1 = "liability_issues" then ms else a.liability_issues,
     a.missing_provisions,
     if cat.1 = "ambiguity" ∨ cat.1 = "one_sided_terms" ∨ cat.1 = "liability_issues"
     then a.other_issues else a.other_issues ++ ms⟩

/-- analyze_contract: run the category loop, compute the missing provisions,
then the overall risk score — min(100, total/len) over the six recorded
categories, plus min(20, 5*missing) when provisions are missing, clamped
again at 100. -/
def analyze_contract (text : String) : RiskAnalysis :=
  let a0 : RiskAnalysis := ⟨0, [], [], [], [], [], []⟩
  let a1 := risk_patterns.foldl (stepCategory text) a0
  let missing := find_missing_provisions text
  let a2 : RiskAnalysis :=
    ⟨a1.risk_score, a1.risk_categories, a1.ambiguous_clauses, a1.one_sided_terms,
     a1.liability_issues, missing, a1.other_issues⟩
  if a2.risk_categories.isEmpty then a2
  else
    let total : Nat := (a2.risk_categories.map (fun c => c.2.1)).sum
    let score1 : ℚ := min 100 ((total : ℚ) / (a2.risk_categories.length : ℚ))
    let score2 : ℚ :=
      if missing.isEmpty then score1
      else min 100 (score1 + min 20 ((missing.length : ℚ) * 5))
    ⟨score2, a2.risk_categories, a2.ambiguous_clauses, a2.one_sided_terms,
     a2.liability_issues, a2.missing_provisions, a2.other_issues⟩

/-- The raw (uncapped) match count of one risk category on a text. -/
def riskRaw (cat : String) (text : String) : Nat :=
  (riskMatchesOf text ((risk_patterns.lookup cat).getD [])).length

/-! ## citation_analyzer.py

The four citation pattern families of CitationAnalyzer.__init__, compiled by
hand from their regex sources (these are matched without re.IGNORECASE).
Each entry carries the number of capturing groups, which decides what
re.findall returns. -/

/-- The [Aa] class of the constitution patterns. -/
def classAa : Rx := .cls (fun c => c = 'A' || c = 'a')

/-- The [Ss] class of the second section pattern. -/
def classSs : Rx := .cls (fun c => c = 'S' || c = 's')

/-- The [A-Za-z\s] class of the first section pattern. -/
def alphaSpaceC : Rx := .cls (fun c => c.isAlpha || isSpaceChar c)

/-- SCC format: parenthesised year, volume, SCC, page. -/
def rxCase1 : Rx :=
  catList [litC '(', repN 4 digitC, litC ')', rplus spaceC, rplus digitC,
    rplus spaceC, lits "SCC", rplus spaceC, rplus digitC]

/-- Alternative SCC format: year, parenthesised volume, SCC, page. -/
def rxCase2 : Rx :=
  catList [repN 4 digitC, rplus spaceC, litC '(', rplus digitC, litC ')',
    rplus spaceC, lits "SCC", rplus spaceC, rplus digitC]

/-- AIR SC format. -/
def rxCase3 : Rx :=
  catList [lits "AIR", rplus spaceC, repN 4 digitC, rplus spaceC, lits "SC",
    rplus spaceC, rplus digitC]

/-- SCR format. -/
def rxCase4 : Rx :=
  catList [litC '(', repN 4 digitC, litC ')', rplus spaceC, rplus digitC,
    rplus spaceC, lits "SCR", rplus spaceC, rplus digitC]

/-- The Act/Rules/Regulation statute patterns share their shape; word is the
distinguishing literal.  One capturing group around the whole citation. -/
def rxStatute (word : String) : Rx :=
  catList [ropt (catList [lits "The", rplus spaceC]),
    .group 1 (catList [upperC, rplus lowerC,
      .star (catList [rplus spaceC, upperC, rplus lowerC]),
      rplus spaceC, lits word, ropt (litC ','), rplus spaceC,
      ropt (catList [lits "of", rplus spaceC]), repN 4 digitC])]

/-- Basic article pattern: group 1 is the article number with optional
clause and sub-clause parentheses. -/
def rxConst1 : Rx :=
  catList [classAa, lits "rticle", rplus spaceC,
    .group 1 (catList [rplus digitC,
      ropt (catList [litC '(', rplus digitC, litC ')']),
      ropt (catList [litC '(', lowerC, litC ')'])])]

/-- Structured article pattern with three groups; note the mandatory
closing parenthesis at its end, present in the source regex. -/
def rxConst2 : Rx :=
  catList [classAa, lits "rticle", rplus spaceC, .group 1 (rplus digitC),
    ropt (catList [litC '(', .group 2 (rplus digitC),
      ropt (catList [litC '(', .group 3 lowerC, litC ')'])]),
    litC ')']

/-- Article-of-the-Constitution pattern. -/
def rxConst3 : Rx :=
  catList [classAa, lits "rticle", rplus spaceC,
    .group 1 (catList [rplus digitC,
      ropt (catList [litC '(', rplus digitC, litC ')']),
      ropt (catList [litC '(', lowerC, litC ')'])]),
    rplus spaceC, lits "of", rplus spaceC, lits "the", rplus spaceC,
    lits "Constitution"]

/-- Section-of-the-Act pattern, two groups. -/
def rxSect1 : Rx :=
  catList [lits "Section", rplus spaceC,
    .group 1 (catList [rplus digitC, ropt (catList [litC '(', lowerC, litC ')'])]),
    rplus spaceC, lits "of", rplus spaceC, lits "the", rplus spaceC,
    .group 2 (rplus alphaSpaceC)]

/-- Under-section pattern, one group. -/
def rxSect2 : Rx :=
  catList [lits "under", rplus spaceC, classSs, lits "ection", rplus spaceC,
    .group 1 (catList [rplus digitC, ropt (catList [litC '(', lowerC, litC ')'])])]

/-- The patterns dict of CitationAnalyzer, in source order, each regex with
its number of capturing groups. -/
def citationPatterns : List (String × List (Rx × Nat)) :=
  [("case_citations", [(rxCase1, 0), (rxCase2, 0), (rxCase3, 0), (rxCase4, 0)]),
   ("statute_citations",
    [(rxStatute "Act", 1), (rxStatute "Rules", 1), (rxStatute "Regulation", 1)]),
   ("constitution_citations", [(rxConst1, 1), (rxConst2, 3), (rxConst3, 1)]),
   ("section_citations", [(rxSect1, 2), (rxSect2, 1)])]

/-- The concatenated findall results of one category's patterns on a text,
before deduplication (the matches list of extract_citations). -/
def citationRawOf (text : String) (ps : List (Rx × Nat)) : List String :=
  ps.flatMap (fun q => findallStrings text.data q.1 q.2)

/-- The matches list of extract_citations for a named category. -/
def citationRaw (text : String) (ty : String) : List String :=
  citationRawOf text ((citationPatterns.lookup ty).getD [])

/-- The duplicate-removal loop of extract_citations: append each item only
when it is not yet present, preserving first-occurrence order. -/
def dedupKeepFirst (l : List String) : List String :=
  l.foldl (fun acc x => if x ∈ acc then acc else acc ++ [x]) []

/-- extract_citations: for each of the four citation categories, the
deduplicated concatenation of its patterns' findall results; every category
key appears in the result, with an empty list when nothing matched. -/
def extract_citations (text : String) : List (String × List String) :=
  citationPatterns.map (fun p => (p.1, dedupKeepFirst (citationRawOf text p.2)))

/-! ## build_citation_network and its NetworkX DiGraph

A NetworkX DiGraph keyed by node name: nodes carry an optional type
attribute, and at most one directed edge exists per ordered node pair
(re-adding an edge only updates its attributes).  The shared attribute of
co-citation edges is the only edge attribute the code sets. -/

/-- A NetworkX DiGraph as build_citation_network uses it: node list in
insertion order with the type attribute, edge list in insertion order with
the shared attribute. -/
structure PyGraph where
  nodes : List (String × Option String)
  edges : List (String × String × Option String)

/-- The empty DiGraph. -/
def emptyGraph : PyGraph := ⟨[], []⟩

/-- G.has_node. -/
def hasNode (G : PyGraph) (n : String) : Bool := G.nodes.any (fun p => p.1 = n)

/-- G.add_node(n, type=ty): a new node is appended, re-adding updates the
type attribute in place. -/
def addNodeTyped (G : PyGraph) (n ty : String) : PyGraph :=
  if hasNode G n then
    ⟨G.nodes.map (fun p => if p.1 = n then (n, some ty) else p), G.edges⟩
  else ⟨G.nodes ++ [(n, some ty)], G.edges⟩

/-- G.add_edge's implicit node creation: add a node without attributes if
absent. -/
def addNodeBare (G : PyGraph) (n : String) : PyGraph :=
  if hasNode G n then G else ⟨G.nodes ++ [(n, none)], G.edges⟩

/-- Whether G already has the directed edge (u, v). -/
def hasEdge (G : PyGraph) (u v : String) : Bool :=
  G.edges.any (fun e => e.1 = u && e.2.1 = v)

/-- G.add_edge(u, v[, shared=s]): both endpoints are created if missing; a
new edge is appended; re-adding an existing edge merges attributes, so a
call without shared leaves the stored attribute, and a call with shared
overwrites it. -/
def addEdge (G : PyGraph) (u v : String) (attr : Option String) : PyGraph :=
  let G1 := addNodeBare (addNodeBare G u) v
  if hasEdge G1 u v then
    match attr with
    | none => G1
    | some s =>
      ⟨G1.nodes,
       G1.edges.map (fun e => if e.1 = u && e.2.1 = v then (u, v, some s) else e)⟩
  else ⟨G1.nodes, G1.edges ++ [(u, v, attr)]⟩

/-- A document as build_citation_network receives it: (doc_id, text,
metadata), with the metadata modelled by its optional filename entry. -/
abbrev Doc := String × String × Option String

/-- metadata.get('filename', doc_id). -/
def docName (d : Doc) : String := d.2.2.getD d.1

/-- The (citation_type, citation_str) pairs of one document's extracted
citations, in the iteration order of the first loop of
build_citation_network. -/
def citPairs (text : String) : List (String × String) :=
  (extract_citations text).flatMap (fun p =>
    p.2.map (fun c => (p.1, p.1 ++ ":" ++ c)))

/-- The citation_str keys of one document, in iteration order. -/
def citationStrings (text : String) : List String :=
  (citPairs text).map (fun q => q.2)

/-- Insert into a Python dict modelled as an ordered association list:
overwriting keeps the key's position, a new key is appended. -/
def dictInsert (m : List (String × α)) (k : String) (v : α) : List (String × α) :=
  if m.any (fun p => p.1 = k) then
    m.map (fun p => if p.1 = k then (k, v) else p)
  else m ++ [(k, v)]

/-- defaultdict(list) append: extend the key's list, creating it at the end
when absent. -/
def dictAppend (m : List (String × List String)) (k v : String) :
    List (String × List String) :=
  if m.any (fun p => p.1 = k) then
    m.map (fun p => if p.1 = k then (k, p.2 ++ [v]) else p)
  else m ++ [(k, [v])]

/-- The first loop of build_citation_network applied to one document: add
the document node, then every citation node (if not yet present, with its
category as type) and the document-to-citation edge; also record the
document's citations in doc_citations. -/
def addDoc (acc : PyGraph × List (String × List String)) (d : Doc) :
    PyGraph × List (String × List String) :=
  let name := docName d
  let G := addNodeTyped acc.1 name "document"
  let G := (citPairs d.2.1).foldl (fun G q =>
    let G := if hasNode G q.2 then G else addNodeTyped G q.2 q.1
    addEdge G name q.2 none) G
  (G, dictInsert acc.2 name (citationStrings d.2.1))

/-- The citation_to_docs inverse index: for each document (in doc_citations
order) append its name under each of its citation keys. -/
def citationToDocs (docCits : List (String × List String)) :
    List (String × List String) :=
  docCits.foldl (fun m p => p.2.foldl (fun m c => dictAppend m c p.1) m) []

/-- The i<j double loop connecting documents that share a citation. -/
def addPairs (G : PyGraph) (ds : List String) (c : String) : PyGraph :=
  match ds with
  | [] => G
  | d :: rest => addPairs (rest.foldl (fun G e => addEdge G d e (some c)) G) rest c

/-- build_citation_network: the document/citation loop, then the co-citation
edges for every citation cited by more than one document. -/
def build_citation_network (documents : List Doc) : PyGraph :=
  let (G, docCits) := documents.foldl addDoc (emptyGraph, [])
  (citationToDocs docCits).foldl (fun G p =>
    if 1 < p.2.length then addPairs G p.2 p.1 else G) G

/-- The directed edges of G from u to v (the claim about parallel edges is
about the length of this list). -/
def edgesBetween (G : PyGraph) (u v : String) : List (String × String × Option String) :=
  G.edges.filter (fun e => e.1 = u && e.2.1 = v)

/-! ## legal_analyzer_tools.py (extract_contract_details dates,
generate_legal_summary governing law) -/

/-- Date pattern 1 of extract_contract_details (re.IGNORECASE). -/
def rxDate1 : Rx :=
  catList [litsCI "effective as of", rplus spaceC,
    .group 1 (catList [rplus (.cls Char.isAlpha), rplus spaceC, digitC,
      ropt digitC, litC ',', rplus spaceC, repN 4 digitC])]

/-- Date pattern 2 of extract_contract_details (re.IGNORECASE). -/
def rxDate2 : Rx :=
  catList [litsCI "dated", rplus spaceC,
    .group 1 (catList [rplus (.cls Char.isAlpha), rplus spaceC, digitC,
      ropt digitC, litC ',', rplus spaceC, repN 4 digitC])]

/-- Date pattern 3 of extract_contract_details (re.IGNORECASE). -/
def rxDate3 : Rx :=
  catList [litsCI "dated", rplus spaceC, litsCI "this", rplus spaceC,
    .group 1 (catList [digitC, ropt digitC,
      ropt (.alt (litsCI "st") (.alt (litsCI "nd") (.alt (litsCI "rd") (litsCI "th")))),
      rplus spaceC, litsCI "day", rplus spaceC, litsCI "of", rplus spaceC,
      rplus (.cls Char.isAlpha), litC ',', rplus spaceC, repN 4 digitC])]

/-- The effective-date extraction of extract_contract_details: try the three
date patterns in order, the first match's group 1 becomes the
effective_date entry; none when all three fail, in which case the key is
absent from the returned dict. -/
def effective_date_of (text : String) : Option String :=
  match search text.data rxDate1 with
  | some m => some (groupStr text.data m.2.2 1)
  | none =>
    match search text.data rxDate2 with
    | some m => some (groupStr text.data m.2.2 1)
    | none =>
      match search text.data rxDate3 with
      | some m => some (groupStr text.data m.2.2 1)
      | none => none

/-- The governing-law pattern of generate_legal_summary (re.IGNORECASE). -/
def rxGovLaw : Rx :=
  catList [.alt (litsCI "governed by") (.alt (litsCI "governing law") (litsCI "subject to")),
    rep1to 50 dotC,
    .alt (litsCI "laws of") (litsCI "law of"), rplus spaceC,
    .group 1 (rplus (.cls (fun c => c.isAlpha || c = ' ')))]

/-- The governing-law extraction of generate_legal_summary: the stripped
group 1 of the first match, none when there is no match. -/
def governing_law_of (text : String) : Option String :=
  match search text.data rxGovLaw with
  | some m => some (pyStrip (groupStr text.data m.2.2 1))
  | none => none

/-- The scenario text of the specification's extract_contract_details
example. -/
def c3text : String :=
  "This Agreement, dated January 1, 2023, is governed by the laws of Delaware."

/-! ## document_comparison.py _calculate_text_similarity -/

/-- The \b\w+\b token pattern of _calculate_text_similarity. -/
def rxWordToken : Rx := .cat .wordB (.cat (rplus (.cls isWordChar)) .wordB)

/-- re.findall(r'\b\w+\b', text.lower()): the word tokens of the lowered
text, in occurrence order. -/
def wordTokens (text : String) : List String :=
  findallStrings (pyLower text).data rxWordToken 0

/-- Python round(x, 4) modelled exactly over the rationals: round half to
even at four decimal places (floats are idealised as exact rationals). -/
def pyRound4 (x : ℚ) : ℚ :=
  let y : ℚ := x * 10000
  let f : ℤ := ⌊y⌋
  let n : ℤ :=
    if y - f < 1 / 2 then f
    else if 1 / 2 < y - f then f + 1
    else if 2 ∣ f then f else f + 1
  (n : ℚ) / 10000

/-- The distinct word set of a text as a deduplicated list (Python
set(...) of the tokens; only cardinalities of intersections and unions are
consumed, so the list order is immaterial). -/
def wordSet (text : String) : List String := dedupKeepFirst (wordTokens text)

/-- _calculate_text_similarity: Jaccard similarity of the two word sets,
rounded to four decimal places; 0 when the union is empty. -/
def calculate_text_similarity (text1 text2 : String) : ℚ :=
  let w1 := wordSet text1
  let w2 := wordSet text2
  let inter : Nat := (w1.filter (fun w => w ∈ w2)).length
  let uni : Nat := (dedupKeepFirst (wordTokens text1 ++ wordTokens text2)).length
  if 0 < uni then pyRound4 ((inter : ℚ) / (uni : ℚ)) else 0

/-! ## legal_document_comparison.py _calculate_similarity
(difflib.SequenceMatcher ratio)

SequenceMatcher is embedded with its b2j index, autojunk popularity rule
(only for len(b) >= 200), the j2len longest-match dynamic programming loop
with first-strictly-greater tie-breaking, and the two non-junk extension
loops (the junk set is empty because the comparator passes junk=None).
get_matching_blocks is realised by the equivalent recursive decomposition,
whose matched total is what ratio sums. -/

/-- b2j: for each character of b its ascending list of positions. -/
def b2jBuild (b : List Char) : List (Char × List Nat) :=
  ((b.zip (List.range b.length)).foldl (fun m p =>
    if m.any (fun q => q.1 = p.1) then
      m.map (fun q => if q.1 = p.1 then (q.1, q.2 ++ [p.2]) else q)
    else m ++ [(p.1, [p.2])]) [])

/-- b2j after the autojunk rule: for len(b) >= 200, characters occurring
more than len(b)/100 + 1 times are dropped from the index. -/
def b2jOf (b : List Char) : List (Char × List Nat) :=
  let m := b2jBuild b
  if 200 ≤ b.length then
    let ntest := b.length / 100 + 1
    m.filter (fun q => !(ntest < q.2.length))
  else m

/-- The positions of c in the b2j index (empty when c is not indexed). -/
def b2jGet (m : List (Char × List Nat)) (c : Char) : List Nat :=
  match m.find? (fun q => q.1 = c) with
  | some q => q.2
  | none => []

/-- Association-list read with default, for the j2len dictionaries. -/
def lookupD (m : List (Nat × Nat)) (k : Nat) : Nat :=
  match m.find? (fun q => q.1 = k) with
  | some q => q.2
  | none => 0

/-- The inner loop of find_longest_match over the positions j of a[i] in b
(already filtered to [blo, bhi)): build the new j2len row and update the
best block on strictly greater length. -/
def flmRow (i : Nat) (prev : List (Nat × Nat)) :
    List Nat → List (Nat × Nat) → Nat × Nat × Nat → List (Nat × Nat) × (Nat × Nat × Nat)
  | [], acc, best => (acc, best)
  | j :: js, acc, best =>
    let k := (if j = 0 then 0 else lookupD prev (j - 1)) + 1
    let best' := if best.2.2 < k then (i + 1 - k, j + 1 - k, k) else best
    flmRow i prev js ((j, k) :: acc) best'

/-- The outer loop of find_longest_match: one j2len row per position i of
the a window. -/
def flmRows (a : List Char) (b2j : List (Char × List Nat)) (blo bhi : Nat) :
    Nat → Nat → List (Nat × Nat) → Nat × Nat × Nat → Nat × Nat × Nat
  | 0, _, _, best => best
  | cnt + 1, i, prev, best =>
    let js := (b2jGet b2j (a.getD i ' ')).filter (fun j => blo ≤ j && j < bhi)
    let (row, best') := flmRow i prev js [] best
    flmRows a b2j blo bhi cnt (i + 1) row best'

/-- The first extension loop: extend the best block backwards over equal
characters (the junk set is empty, so the not-junk guard always passes). -/
def extendBack (a b : List Char) (alo blo : Nat) :
    Nat → Nat → Nat → Nat → Nat × Nat × Nat
  | 0, i, j, size => (i, j, size)
  | fuel + 1, i, j, size =>
    if alo < i && blo < j && a.getD (i - 1) ' ' == b.getD (j - 1) '!' then
      extendBack a b alo blo fuel (i - 1) (j - 1) (size + 1)
    else (i, j, size)

/-- The second extension loop: extend the best block forwards over equal
characters. -/
def extendFwd (a b : List Char) (ahi bhi i j : Nat) : Nat → Nat → Nat
  | 0, size => size
  | fuel + 1, size =>
    if i + size < ahi && j + size < bhi && a.getD (i + size) ' ' == b.getD (j + size) '!' then
      extendFwd a b ahi bhi i j fuel (size + 1)
    else size

/-- find_longest_match on the window a[alo:ahi] x b[blo:bhi]. -/
def findLongestMatch (a b : List Char) (b2j : List (Char × List Nat))
    (alo ahi blo bhi : Nat) : Nat × Nat × Nat :=
  let best := flmRows a b2j blo bhi (ahi - alo) alo [] (alo, blo, 0)
  let back := extendBack a b alo blo best.1 best.1 best.2.1 best.2.2
  let size := extendFwd a b ahi bhi back.1 back.2.1 ahi back.2.2
  (back.1, back.2.1, size)

/-- The matched total of get_matching_blocks: the recursive decomposition
around each longest match, summing block sizes (what ratio consumes).  Fuel
bounds the recursion depth; the entry point supplies enough. -/
def matchedTot (a b : List Char) (b2j : List (Char × List Nat)) :
    Nat → Nat → Nat → Nat → Nat → Nat
  | 0, _, _, _, _ => 0
  | fuel + 1, alo, ahi, blo, bhi =>
    let m := findLongestMatch a b b2j alo ahi blo bhi
    if m.2.2 = 0 then 0
    else
      m.2.2 + matchedTot a b b2j fuel alo m.1 blo m.2.1
        + matchedTot a b b2j fuel (m.1 + m.2.2) ahi (m.2.1 + m.2.2) bhi

/-- The matches count of SequenceMatcher(None, a, b).get_matching_blocks(). -/
def seqMatches (a b : List Char) : Nat :=
  matchedTot a b (b2jOf b) (a.length + b.length + 1) 0 a.length 0 b.length

/-- SequenceMatcher.ratio(): 2*M/(len(a)+len(b)), and 1 when both are
empty (difflib's _calculate_ratio). -/
def seqRatioQ (a b : List Char) : ℚ :=
  let n := a.length + b.length
  if n = 0 then 1 else 2 * (seqMatches a b : ℚ) / (n : ℚ)

/-- _calculate_similarity of LegalDocumentComparison: the sequence ratio
scaled to a 0..100 score. -/
def calculate_similarity (text1 text2 : String) : ℚ :=
  seqRatioQ text1.data text2.data * 100

/-! ## Helper definitions for the proofs -/

/-- Structural form of the duplicate-removal loop: keep the head, drop its
later copies, recurse.  Proved equal to dedupKeepFirst below and used to
reason about it. -/
def dkf : List String → List String
  | [] => []
  | x :: xs => x :: dkf (xs.filter (fun y => y ≠ x))
termination_by l => l.length
decreasing_by
  exact Nat.lt_succ_of_le (List.length_filter_le _ _)

/-- The (source, target) keys of a graph's edge list. -/
def edgeKeys (G : PyGraph) : List (String × String) :=
  G.edges.map (fun e => (e.1, e.2.1))

/-- The two documents of the C2 counterexample: both cite Article 14 and
Article 21, so they share two distinct citation keys. -/
def c2docs : List Doc :=
  [("d1", "Article 14 and Article 21", none),
   ("d2", "Article 14 and Article 21", none)]

/-- The single document of the C4 counterexample: its id collides with the
citation node key its own text generates. -/
def c4docs : List Doc :=
  [("constitution_citations:14", "Article 14", none)]

/-- The documents of the C4 witness: distinct names, disjoint citations. -/
def c4wdocs : List Doc :=
  [("a", "Article 14 applies", none), ("b", "Article 21 and Article 32", none)]

/-- The capped total of the six category scores, as a rational. -/
def riskTotal (text : String) : ℚ :=
  ((min 100 (riskRaw "ambiguity" text * 10) + min 100 (riskRaw "one_sided_terms" text * 10)
    + min 100 (riskRaw "liability_issues" text * 10)
    + min 100 (riskRaw "termination_risks" text * 10)
    + min 100 (riskRaw "confidentiality_risks" text * 10)
    + min 100 (riskRaw "ip_risks" text * 10) : ℕ) : ℚ)

/-! ## Theorems -/

/-- The category loop's recorded (category, score, matches) triples: six
entries, one per scored category, each score capped at 100. -/
theorem risk_fold_categories (text : String) :
    (risk_patterns.foldl (stepCategory text) ⟨0, [], [], [], [], [], []⟩).risk_categories =
      [("ambiguity", min 100 (riskRaw "ambiguity" text * 10), riskRaw "ambiguity" text),
       ("one_sided_terms", min 100 (riskRaw "one_sided_terms" text * 10),
         riskRaw "one_sided_terms" text),
       ("liability_issues", min 100 (riskRaw "liability_issues" text * 10),
         riskRaw "liability_issues" text),
       ("termination_risks", min 100 (riskRaw "termination_risks" text * 10),
         riskRaw "termination_risks" text),
       ("confidentiality_risks", min 100 (riskRaw "confidentiality_risks" text * 10),
         riskRaw "confidentiality_risks" text),
       ("ip_risks", min 100 (riskRaw "ip_risks" text * 10), riskRaw "ip_risks" text)] :=
  rfl

set_option maxHeartbeats 1600000 in
/-- Evaluation of the risk score: analyze_contract computes
min(100, total/6), then adds min(20, 5*missing) and clamps once more when
provisions are missing. -/
theorem risk_score_eval (text : String) :
    (analyze_contract text).risk_score =
      if (find_missing_provisions text).isEmpty then min 100 (riskTotal text / 6)
      else
        min 100 (min 100 (riskTotal text / 6)
          + min 20 (((find_missing_provisions text).length : ℚ) * 5)) := by
  have hsum : ∀ a b c d e f : ℕ,
      ((a + (b + (c + (d + (e + (f + 0))))) : ℕ) : ℚ) = ((a + b + c + d + e + f : ℕ) : ℚ) := by
    intro a b c d e f
    push_cast
    ring
  simp only [analyze_contract, risk_fold_categories, riskTotal]
  simp only [List.isEmpty_cons, List.map_cons, List.map_nil, List.sum_cons, List.sum_nil,
    List.length_cons, List.length_nil, hsum]
  norm_num

/-- The capped total is at most 600, so total/6 is at most 100. -/
theorem riskTotal_le (text : String) : riskTotal text / 6 ≤ 100 := by
  have h1 := Nat.min_le_left 100 (riskRaw "ambiguity" text * 10)
  have h2 := Nat.min_le_left 100 (riskRaw "one_sided_terms" text * 10)
  have h3 := Nat.min_le_left 100 (riskRaw "liability_issues" text * 10)
  have h4 := Nat.min_le_left 100 (riskRaw "termination_risks" text * 10)
  have h5 := Nat.min_le_left 100 (riskRaw "confidentiality_risks" text * 10)
  have h6 := Nat.min_le_left 100 (riskRaw "ip_risks" text * 10)
  have h : (min 100 (riskRaw "ambiguity" text * 10) + min 100 (riskRaw "one_sided_terms" text * 10)
      + min 100 (riskRaw "liability_issues" text * 10)
      + min 100 (riskRaw "termination_risks" text * 10)
      + min 100 (riskRaw "confidentiality_risks" text * 10)
      + min 100 (riskRaw "ip_risks" text * 10) : ℕ) ≤ 600 := by omega
  have hq : riskTotal text ≤ 600 := by
    unfold riskTotal
    exact_mod_cast h
  linarith

/-- The capped total is nonnegative. -/
theorem riskTotal_nonneg (text : String) : 0 ≤ riskTotal text := by
  unfold riskTotal
  exact Nat.cast_nonneg _

/-- C1: for every text, the risk_score of analyze_contract equals the mean
over the six scored risk categories of the capped scores min(100, raw*10),
incremented by min(20, 5*missing_provision_count), clamped to 100.  (When
no provision is missing the code skips the increment, which coincides with
adding min(20, 0).) -/
theorem C1_risk_score_formula (text : String) :
    (analyze_contract text).risk_score =
      min 100 ((min 100 ((riskRaw "ambiguity" text : ℚ) * 10)
        + min 100 ((riskRaw "one_sided_terms" text : ℚ) * 10)
        + min 100 ((riskRaw "liability_issues" text : ℚ) * 10)
        + min 100 ((riskRaw "termination_risks" text : ℚ) * 10)
        + min 100 ((riskRaw "confidentiality_risks" text : ℚ) * 10)
        + min 100 ((riskRaw "ip_risks" text : ℚ) * 10)) / 6
        + min 20 (((find_missing_provisions text).length : ℚ) * 5)) := by
  have hT : riskTotal text =
      min 100 ((riskRaw "ambiguity" text : ℚ) * 10)
        + min 100 ((riskRaw "one_sided_terms" text : ℚ) * 10)
        + min 100 ((riskRaw "liability_issues" text : ℚ) * 10)
        + min 100 ((riskRaw "termination_risks" text : ℚ) * 10)
        + min 100 ((riskRaw "confidentiality_risks" text : ℚ) * 10)
        + min 100 ((riskRaw "ip_risks" text : ℚ) * 10) := by
    unfold riskTotal
    push_cast
    ring
  rw [risk_score_eval text, ← hT]
  by_cases hm : (find_missing_provisions text).isEmpty
  · have h0 : ((find_missing_provisions text).length : ℚ) = 0 := by
      rw [List.isEmpty_iff] at hm
      simp [hm]
    simp [hm, h0]
  · simp only [hm, if_false, Bool.false_eq_true]
    rw [min_eq_right (riskTotal_le text)]

/-- C7: for every text, the risk_score of analyze_contract lies between 0
and 100. -/
theorem C7_risk_score_bounds (text : String) :
    0 ≤ (analyze_contract text).risk_score ∧ (analyze_contract text).risk_score ≤ 100 := by
  rw [risk_score_eval text]
  have hT6 : (0 : ℚ) ≤ riskTotal text / 6 := by
    have := riskTotal_nonneg text
    positivity
  by_cases hm : (find_missing_provisions text).isEmpty
  · simp only [hm, if_true]
    exact ⟨le_min (by norm_num) hT6, min_le_left _ _⟩
  · simp only [hm, if_false, Bool.false_eq_true]
    refine ⟨le_min (by norm_num) ?_, min_le_left _ _⟩
    have h1 : (0 : ℚ) ≤ min 100 (riskTotal text / 6) := le_min (by norm_num) hT6
    have h2 : (0 : ℚ) ≤ min 20 (((find_missing_provisions text).length : ℚ) * 5) :=
      le_min (by norm_num) (by positivity)
    linarith

/-- C5: a text containing the whole word non-disclosure (case-insensitively,
i.e. word-bounded in the lowered text) never reports confidentiality as a
missing provision, because non-disclosure is one of its synonyms. -/
theorem C5_non_disclosure_synonym (text : String)
    (h1 : wordSearch "non-disclosure" (pyLower text).data = true)
    (h2 : wordSearch "confidentiality" (pyLower text).data = false) :
    "confidentiality" ∉ find_missing_provisions text := by
  intro hmem
  unfold find_missing_provisions at hmem
  rw [List.mem_filter] at hmem
  have hb := hmem.2
  have hp : pyLower "confidentiality" = "confidentiality" := rfl
  have hs : provision_synonyms "confidentiality" =
      ["non-disclosure", "private information", "proprietary information"] := rfl
  rw [hp, hs] at hb
  simp [h1] at hb

/-- C5 witness: a concrete contract snippet containing non-disclosure but
not confidentiality; the provision list analyze finds does not include
confidentiality. -/
theorem C5_witness :
    wordSearch "non-disclosure" (pyLower "Non-Disclosure obligations survive.").data = true ∧
      wordSearch "confidentiality" (pyLower "Non-Disclosure obligations survive.").data = false ∧
      "confidentiality" ∉ find_missing_provisions "Non-Disclosure obligations survive." :=
  ⟨by decide, by decide,
    C5_non_disclosure_synonym "Non-Disclosure obligations survive." (by decide) (by decide)⟩

/-- dedupKeepFirst coincides with the structural dedup dkf (generalised
fold invariant). -/
theorem dedup_foldl_general (xs : List String) : ∀ acc : List String,
    xs.foldl (fun acc x => if x ∈ acc then acc else acc ++ [x]) acc =
      acc ++ dkf (xs.filter (fun y => y ∉ acc)) := by
  induction xs with
  | nil => intro acc; simp [dkf]
  | cons x xs ih =>
    intro acc
    by_cases hx : x ∈ acc
    · simp only [List.foldl_cons, if_pos hx, List.filter_cons]
      have : (decide (x ∉ acc)) = false := by simp [hx]
      rw [this]
      simp only [Bool.false_eq_true, if_false]
      exact ih acc
    · simp only [List.foldl_cons, if_neg hx, List.filter_cons]
      have hd : (decide (x ∉ acc)) = true := by simp [hx]
      rw [hd]
      simp only [if_true]
      rw [ih (acc ++ [x])]
      have hfeq : xs.filter (fun y => y ∉ acc ++ [x]) =
          (xs.filter (fun y => y ∉ acc)).filter (fun y => y ≠ x) := by
        rw [List.filter_filter]
        apply List.filter_congr
        intro a _
        simp [List.mem_append, and_comm]
      rw [hfeq, dkf]
      simp [List.append_assoc]

/-- dedupKeepFirst is the structural dedup. -/
theorem dedupKeepFirst_eq_dkf (l : List String) : dedupKeepFirst l = dkf l := by
  unfold dedupKeepFirst
  rw [dedup_foldl_general l []]
  simp

/-- Membership is preserved by dkf. -/
theorem mem_dkf {l : List String} {y : String} : y ∈ dkf l ↔ y ∈ l := by
  induction l using dkf.induct with
  | case1 => simp [dkf]
  | case2 x xs ih =>
    rw [dkf]
    simp only [List.mem_cons, ih, List.mem_filter]
    constructor
    · rintro (h | ⟨h, _⟩)
      · exact Or.inl h
      · exact Or.inr h
    · rintro (h | h)
      · exact Or.inl h
      · by_cases hy : y = x
        · exact Or.inl hy
        · exact Or.inr ⟨h, by simp [hy]⟩

/-- Each element of the input occurs exactly once in dkf's output. -/
theorem count_dkf {l : List String} {s : String} (hs : s ∈ l) : (dkf l).count s = 1 := by
  induction l using dkf.induct with
  | case1 => cases hs
  | case2 x xs ih =>
    rw [dkf]
    by_cases hsx : s = x
    · subst hsx
      have hnot : s ∉ dkf (xs.filter (fun y => y ≠ s)) := by
        rw [mem_dkf]
        intro hc
        rw [List.mem_filter] at hc
        simp at hc
      rw [List.count_cons_self, List.count_eq_zero.mpr hnot]
    · have hmem : s ∈ xs.filter (fun y => y ≠ x) := by
        rcases List.mem_cons.mp hs with h | h
        · exact absurd h hsx
        · rw [List.mem_filter]
          exact ⟨h, by simp [hsx]⟩
      rw [List.count_cons_of_ne hsx, ih hmem]

/-- takeWhile and a filter on a different value commute. -/
theorem takeWhile_filter_comm (x s : String) (hxs : x ≠ s) (l : List String) :
    (l.filter (fun y => y ≠ x)).takeWhile (fun y => y ≠ s) =
      (l.takeWhile (fun y => y ≠ s)).filter (fun y => y ≠ x) := by
  induction l with
  | nil => simp
  | cons y ys ih =>
    simp only [ne_eq, decide_not] at ih ⊢
    rw [List.filter_cons, List.takeWhile_cons]
    by_cases hys : y = s
    · subst hys
      have hsx : y ≠ x := Ne.symm hxs
      simp [hsx]
    · by_cases hyx : y = x
      · subst hyx
        simp [hys, ih]
      · simp [hys, hyx, ih, List.takeWhile_cons, List.filter_cons]

/-- The position of s in dkf's output is the number of distinct values that
precede s's first occurrence in the input. -/
theorem indexOf_dkf {l : List String} {s : String} (hs : s ∈ l) :
    (dkf l).indexOf s = (dkf (l.takeWhile (fun y => y ≠ s))).length := by
  induction l using dkf.induct with
  | case1 => cases hs
  | case2 x xs ih =>
    rw [dkf]
    by_cases hsx : s = x
    · subst hsx
      simp [List.takeWhile_cons, dkf, List.indexOf_cons_self]
    · have hmem : s ∈ xs.filter (fun y => y ≠ x) := by
        rcases List.mem_cons.mp hs with h | h
        · exact absurd h hsx
        · rw [List.mem_filter]
          exact ⟨h, by simp [hsx]⟩
      have hxs : x ≠ s := fun h => hsx h.symm
      rw [List.indexOf_cons_ne _ hxs, ih hmem]
      have htw : (x :: xs).takeWhile (fun y => y ≠ s) = x :: xs.takeWhile (fun y => y ≠ s) := by
        rw [List.takeWhile_cons]
        simp [hxs]
      rw [htw, dkf, takeWhile_filter_comm x s hxs xs]
      simp

/-- The dedup step of extract_citations: one occurrence per value, at the
position given by the distinct values before its first occurrence. -/
theorem dedup_spec (l : List String) (s : String) (hs : s ∈ l) :
    (dedupKeepFirst l).count s = 1 ∧
      (dedupKeepFirst l).indexOf s = (dedupKeepFirst (l.takeWhile (fun y => y ≠ s))).length := by
  rw [dedupKeepFirst_eq_dkf, dedupKeepFirst_eq_dkf]
  exact ⟨count_dkf hs, indexOf_dkf hs⟩

/-- C6: when a citation string is matched at least twice within one
category, the category's list in extract_citations contains it exactly
once, and at the position of its first occurrence in the match stream: the
entries before it are exactly the distinct values matched before its first
occurrence (dedup keeps first occurrences in order, no sorting). -/
theorem C6_dedup_keeps_first_occurrence (text ty : String) (out : List String) (s : String)
    (hmem : (ty, out) ∈ extract_citations text)
    (hcount : 2 ≤ (citationRaw text ty).count s) :
    out.count s = 1 ∧
      out.indexOf s =
        (dedupKeepFirst ((citationRaw text ty).takeWhile (fun y => y ≠ s))).length := by
  have hs : 0 < (citationRaw text ty).count s := lt_of_lt_of_le (by norm_num) hcount
  rw [List.count_pos_iff] at hs
  simp only [extract_citations, citationPatterns, List.map_cons, List.map_nil,
    List.mem_cons, List.not_mem_nil, or_false, Prod.mk.injEq] at hmem
  rcases hmem with ⟨h1, h2⟩ | ⟨h1, h2⟩ | ⟨h1, h2⟩ | ⟨h1, h2⟩ <;>
    subst h1 <;> subst h2 <;> exact dedup_spec _ s hs

/-- C6 witness: the text Article 14 and Article 14 matches the citation 14
twice in constitution_citations; the extracted list holds it once, at
index 0. -/
theorem C6_witness :
    (("constitution_citations", ["14"]) ∈ extract_citations "Article 14 and Article 14") ∧
      2 ≤ (citationRaw "Article 14 and Article 14" "constitution_citations").count "14" ∧
      (["14"] : List String).count "14" = 1 ∧
      (["14"] : List String).indexOf "14" =
        (dedupKeepFirst (((citationRaw "Article 14 and Article 14"
          "constitution_citations")).takeWhile (fun y => y ≠ "14"))).length :=
  ⟨by decide, by decide,
    (C6_dedup_keeps_first_occurrence "Article 14 and Article 14" "constitution_citations"
      ["14"] "14" (by decide) (by decide)).1,
    (C6_dedup_keeps_first_occurrence "Article 14 and Article 14" "constitution_citations"
      ["14"] "14" (by decide) (by decide)).2⟩

/-- C9: on the empty text, extract_citations returns all four citation
categories, each mapped to the empty list; no key is absent. -/
theorem C9_extract_citations_empty_text :
    extract_citations "" =
      [("case_citations", []), ("statute_citations", []),
       ("constitution_citations", []), ("section_citations", [])] := by
  decide

/-- A fold preserves any invariant its step preserves. -/
theorem foldl_preserve {β α : Type} (P : β → Prop) (f : β → α → β)
    (hf : ∀ b a, P b → P (f b a)) : ∀ (l : List α) (b : β), P b → P (l.foldl f b)
  | [], _, hb => hb
  | a :: l, b, hb => foldl_preserve P f hf l (f b a) (hf b a hb)

/-- Adding a node (with a type) never changes the edge keys. -/
theorem edgeKeys_addNodeTyped (G : PyGraph) (n ty : String) :
    edgeKeys (addNodeTyped G n ty) = edgeKeys G := by
  unfold addNodeTyped edgeKeys
  split <;> rfl

/-- Adding a bare node never changes the edge keys. -/
theorem edgeKeys_addNodeBare (G : PyGraph) (n : String) :
    edgeKeys (addNodeBare G n) = edgeKeys G := by
  unfold addNodeBare edgeKeys
  split <;> rfl

/-- add_edge keeps the edge keys duplicate-free: re-adding an existing edge
only rewrites its attribute, a new edge appends a key not yet present. -/
theorem edgeKeys_nodup_addEdge (G : PyGraph) (u v : String) (a : Option String)
    (h : (edgeKeys G).Nodup) : (edgeKeys (addEdge G u v a)).Nodup := by
  unfold addEdge
  have hbare : edgeKeys (addNodeBare (addNodeBare G u) v) = edgeKeys G := by
    rw [edgeKeys_addNodeBare, edgeKeys_addNodeBare]
  have hedges : (addNodeBare (addNodeBare G u) v).edges = G.edges := by
    have h1 : ∀ (H : PyGraph) (n : String), (addNodeBare H n).edges = H.edges := by
      intro H n
      unfold addNodeBare
      split <;> rfl
    rw [h1, h1]
  by_cases he : hasEdge (addNodeBare (addNodeBare G u) v) u v
  · simp only [he, if_true]
    cases a with
    | none => simpa [edgeKeys, hedges] using h
    | some s =>
      have : edgeKeys ⟨(addNodeBare (addNodeBare G u) v).nodes,
          (addNodeBare (addNodeBare G u) v).edges.map
            (fun e => if e.1 = u && e.2.1 = v then (u, v, some s) else e)⟩ =
          edgeKeys G := by
        unfold edgeKeys
        simp only [List.map_map, hedges]
        apply List.map_congr_left
        intro e _
        by_cases hc : e.1 = u && e.2.1 = v
        · simp only [Function.comp_apply, hc, if_true]
          simp only [Bool.and_eq_true, decide_eq_true_eq] at hc
          simp [hc.1, hc.2]
        · have hprop : ¬(e.1 = u ∧ e.2.1 = v) := by
            intro hcontra
            exact hc (by simp [hcontra.1, hcontra.2])
          simp [Function.comp_apply, hc, hprop]
      rw [this]
      exact h
  · simp only [he, if_false, Bool.false_eq_true]
    unfold edgeKeys
    simp only [List.map_append, List.map_cons, List.map_nil]
    rw [List.nodup_append]
    refine ⟨by simpa [edgeKeys, hedges] using h, List.nodup_singleton _, ?_⟩
    intro p hp
    simp only [List.mem_singleton]
    intro hpv
    subst hpv
    rw [hedges] at hp
    unfold hasEdge at he
    rw [hedges] at he
    rw [List.mem_map] at hp
    obtain ⟨e, hel, hek⟩ := hp
    apply he
    rw [List.any_eq_true]
    refine ⟨e, hel, ?_⟩
    have h1 : e.1 = u := congrArg Prod.fst hek
    have h2 : e.2.1 = v := congrArg Prod.snd hek
    simp [h1, h2]

/-- Every graph build_citation_network returns has duplicate-free edge
keys: a DiGraph holds at most one edge per ordered node pair. -/
theorem edgeKeys_nodup_build (documents : List Doc) :
    (edgeKeys (build_citation_network documents)).Nodup := by
  unfold build_citation_network
  have hstep1 : ∀ (acc : PyGraph × List (String × List String)) (d : Doc),
      (edgeKeys acc.1).Nodup → (edgeKeys (addDoc acc d).1).Nodup := by
    intro acc d hacc
    unfold addDoc
    simp only
    apply foldl_preserve (fun G => (edgeKeys G).Nodup)
    · intro G q hG
      by_cases hn : hasNode G q.2
      · simp only [hn, if_true]
        exact edgeKeys_nodup_addEdge _ _ _ _ hG
      · simp only [hn, if_false, Bool.false_eq_true]
        apply edgeKeys_nodup_addEdge
        rw [edgeKeys_addNodeTyped]
        exact hG
    · rw [edgeKeys_addNodeTyped]
      exact hacc
  have h1 : (edgeKeys (documents.foldl addDoc (emptyGraph, [])).1).Nodup := by
    have := foldl_preserve (fun acc : PyGraph × List (String × List String) =>
      (edgeKeys acc.1).Nodup) addDoc hstep1 documents (emptyGraph, [])
    exact this (by simp [edgeKeys, emptyGraph])
  have hpairs : ∀ (ds : List String) (c : String) (G : PyGraph),
      (edgeKeys G).Nodup → (edgeKeys (addPairs G ds c)).Nodup := by
    intro ds
    induction ds with
    | nil => intro c G hG; exact hG
    | cons d rest ih =>
      intro c G hG
      unfold addPairs
      apply ih c
      apply foldl_preserve (fun G => (edgeKeys G).Nodup)
      · intro G e hG
        exact edgeKeys_nodup_addEdge _ _ _ _ hG
      · exact hG
  apply foldl_preserve (fun G => (edgeKeys G).Nodup)
  · intro G p hG
    by_cases hl : 1 < p.2.length
    · simp only [hl, if_true]
      exact hpairs p.2 p.1 G hG
    · simp only [hl, if_false]
      exact hG
  · exact h1

/-- A list whose (source, target) keys are duplicate-free has at most one
entry per key. -/
theorem filter_key_le_one (u v : String) :
    ∀ l : List (String × String × Option String),
      (l.map (fun e => (e.1, e.2.1))).Nodup →
        (l.filter (fun e => e.1 = u && e.2.1 = v)).length ≤ 1 := by
  intro l
  induction l with
  | nil => simp
  | cons e l ih =>
    intro h
    rw [List.map_cons, List.nodup_cons] at h
    rw [List.filter_cons]
    by_cases hc : e.1 = u && e.2.1 = v
    · have hk : (e.1, e.2.1) = (u, v) := by
        simp only [Bool.and_eq_true, decide_eq_true_eq] at hc
        rw [hc.1, hc.2]
      have hnil : l.filter (fun e => e.1 = u && e.2.1 = v) = [] := by
        rw [List.filter_eq_nil_iff]
        intro e' he'
        intro hc'
        apply h.1
        rw [List.mem_map]
        refine ⟨e', he', ?_⟩
        simp only [Bool.and_eq_true, decide_eq_true_eq] at hc'
        rw [hc'.1, hc'.2, ← hk]
      rw [hc]
      simp [hnil]
    · have hcf : (decide (e.1 = u) && decide (e.2.1 = v)) = false := by
        simpa using hc
      rw [hcf]
      simpa using ih h.2

/-- C2 amended: between any ordered pair of nodes the graph holds at most
one edge — the DiGraph collapses repeated add_edge calls, so a document
pair sharing k distinct citations gets a single co-citation edge (whose
shared attribute records the last processed key), never k parallel
edges. -/
theorem C2_no_parallel_edges (documents : List Doc) (u v : String) :
    (edgesBetween (build_citation_network documents) u v).length ≤ 1 :=
  filter_key_le_one u v _ (edgeKeys_nodup_build documents)

set_option maxRecDepth 4000 in
/-- C2 counterexample: two documents that share the two distinct citation
keys constitution_citations:14 and constitution_citations:21 end up with a
single d1-to-d2 edge in the DiGraph (its shared attribute holding the last
processed key), not with two parallel edges as the claim states. -/
theorem C2_counterexample_single_edge :
    citationStrings "Article 14 and Article 21" =
        ["constitution_citations:14", "constitution_citations:21"] ∧
      (edgesBetween (build_citation_network c2docs) "d1" "d2").length = 1 ∧
      (edgesBetween (build_citation_network c2docs) "d1" "d2").length ≠ 2 := by
  decide

/-- C3 counterexample: on the scenario text the effective_date key is not
absent — the dated pattern does match "dated January 1, 2023" — so the
claimed conjunction (date absent, governing law Delaware) is false. -/
theorem C3_counterexample_date_present :
    ¬(effective_date_of c3text = none ∧ governing_law_of c3text = some "Delaware") := by
  decide

/-- C3 amended: on the scenario text extract_contract_details yields
effective_date present with value "January 1, 2023", and the governing-law
extraction yields "Delaware". -/
theorem C3_effective_date_and_governing_law :
    effective_date_of c3text = some "January 1, 2023" ∧
      governing_law_of c3text = some "Delaware" := by
  decide

/-- C4 counterexample: a single document whose name equals the citation key
its own text generates satisfies the claim's hypotheses (distinct names and
no sharing hold vacuously), yet the graph has 1 node while the claimed
count N + sum of distinct citation counts is 2. -/
theorem C4_counterexample_name_collision :
    (build_citation_network c4docs).nodes.length = 1 ∧
      c4docs.length + (c4docs.map (fun d => (citationStrings d.2.1).length)).sum = 2 := by
  decide

/-- A lookupD result is zero or an entry of the association list. -/
theorem lookupD_cases (m : List (Nat × Nat)) (k : Nat) :
    lookupD m k = 0 ∨ (k, lookupD m k) ∈ m := by
  unfold lookupD
  cases hf : m.find? (fun q => q.1 = k) with
  | none => exact Or.inl rfl
  | some q =>
    right
    have hq : q ∈ m := List.mem_of_find?_eq_some hf
    have hp : q.1 = k := by
      have := List.find?_some hf
      exact of_decide_eq_true this
    have : (k, q.2) = q := by
      rw [← hp]
    rw [this]
    exact hq

/-- The inner loop of find_longest_match keeps the row entries and the best
block inside the window. -/
theorem flmRow_ok (alo ahi blo bhi i : Nat) (prev : List (Nat × Nat))
    (hprev : ∀ p ∈ prev, blo ≤ p.1 ∧ p.2 + blo ≤ p.1 + 1 ∧ p.2 + alo ≤ i)
    (hi : alo ≤ i) (hia : i < ahi) :
    ∀ (js : List Nat) (acc : List (Nat × Nat)) (best : Nat × Nat × Nat),
      (∀ j ∈ js, blo ≤ j ∧ j < bhi) →
      (∀ p ∈ acc, blo ≤ p.1 ∧ p.2 + blo ≤ p.1 + 1 ∧ p.2 + alo ≤ i + 1) →
      (alo ≤ best.1 ∧ blo ≤ best.2.1 ∧ best.1 + best.2.2 ≤ ahi ∧ best.2.1 + best.2.2 ≤ bhi) →
      ((∀ p ∈ (flmRow i prev js acc best).1,
          blo ≤ p.1 ∧ p.2 + blo ≤ p.1 + 1 ∧ p.2 + alo ≤ i + 1) ∧
        (alo ≤ (flmRow i prev js acc best).2.1 ∧ blo ≤ (flmRow i prev js acc best).2.2.1 ∧
          (flmRow i prev js acc best).2.1 + (flmRow i prev js acc best).2.2.2 ≤ ahi ∧
          (flmRow i prev js acc best).2.2.1 + (flmRow i prev js acc best).2.2.2 ≤ bhi)) := by
  intro js
  induction js with
  | nil =>
    intro acc best _ hacc hbest
    exact ⟨hacc, hbest⟩
  | cons j js ih =>
    intro acc best hjs hacc hbest
    have hj := hjs j (List.mem_cons_self j js)
    rw [flmRow]
    set kv := (if j = 0 then 0 else lookupD prev (j - 1)) + 1 with hkv
    have hk1 : kv + blo ≤ j + 1 := by
      rw [hkv]
      by_cases hj0 : j = 0
      · rw [if_pos hj0]
        subst hj0
        omega
      · rw [if_neg hj0]
        rcases lookupD_cases prev (j - 1) with h0 | hmem
        · rw [h0]
          omega
        · have := hprev _ hmem
          simp only at this
          omega
    have hk2 : kv + alo ≤ i + 1 := by
      rw [hkv]
      by_cases hj0 : j = 0
      · rw [if_pos hj0]
        omega
      · rw [if_neg hj0]
        rcases lookupD_cases prev (j - 1) with h0 | hmem
        · rw [h0]
          omega
        · have := hprev _ hmem
          simp only at this
          omega
    apply ih
    · intro j' hj'
      exact hjs j' (List.mem_cons_of_mem j hj')
    · intro p hp
      rcases List.mem_cons.mp hp with hph | hpt
      · subst hph
        exact ⟨hj.1, hk1, hk2⟩
      · exact hacc p hpt
    · by_cases hlt : best.2.2 < kv
      · rw [if_pos hlt]
        refine ⟨?_, ?_, ?_, ?_⟩ <;> (dsimp only; omega)
      · rw [if_neg hlt]
        exact hbest

/-- The outer loop of find_longest_match keeps the best block inside the
window. -/
theorem flmRows_ok (a : List Char) (b2j : List (Char × List Nat)) (alo ahi blo bhi : Nat) :
    ∀ (cnt i : Nat) (prev : List (Nat × Nat)) (best : Nat × Nat × Nat),
      alo ≤ i → i + cnt ≤ ahi →
      (∀ p ∈ prev, blo ≤ p.1 ∧ p.2 + blo ≤ p.1 + 1 ∧ p.2 + alo ≤ i) →
      (alo ≤ best.1 ∧ blo ≤ best.2.1 ∧ best.1 + best.2.2 ≤ ahi ∧ best.2.1 + best.2.2 ≤ bhi) →
      (alo ≤ (flmRows a b2j blo bhi cnt i prev best).1 ∧
        blo ≤ (flmRows a b2j blo bhi cnt i prev best).2.1 ∧
        (flmRows a b2j blo bhi cnt i prev best).1 +
          (flmRows a b2j blo bhi cnt i prev best).2.2 ≤ ahi ∧
        (flmRows a b2j blo bhi cnt i prev best).2.1 +
          (flmRows a b2j blo bhi cnt i prev best).2.2 ≤ bhi) := by
  intro cnt
  induction cnt with
  | zero =>
    intro i prev best _ _ _ hbest
    exact hbest
  | succ cnt ih =>
    intro i prev best hi hcnt hprev hbest
    rw [flmRows]
    have hrow := flmRow_ok alo ahi blo bhi i prev hprev hi (by omega)
      ((b2jGet b2j (a.getD i ' ')).filter (fun j => blo ≤ j && j < bhi)) [] best
      (by
        intro j hj
        rw [List.mem_filter] at hj
        have := hj.2
        simp only [Bool.and_eq_true, decide_eq_true_eq] at this
        exact this)
      (by intro p hp; cases hp)
      hbest
    exact ih (i + 1) _ _ (by omega) (by omega) hrow.1 hrow.2

/-- The backwards extension loop keeps the block inside the window and
preserves the block's right end. -/
theorem extendBack_ok (a b : List Char) (alo blo : Nat) :
    ∀ (fuel i j size : Nat), alo ≤ i → blo ≤ j →
      (alo ≤ (extendBack a b alo blo fuel i j size).1 ∧
        blo ≤ (extendBack a b alo blo fuel i j size).2.1 ∧
        (extendBack a b alo blo fuel i j size).1 +
          (extendBack a b alo blo fuel i j size).2.2 = i + size ∧
        (extendBack a b alo blo fuel i j size).2.1 +
          (extendBack a b alo blo fuel i j size).2.2 = j + size) := by
  intro fuel
  induction fuel with
  | zero =>
    intro i j size hi hj
    exact ⟨hi, hj, rfl, rfl⟩
  | succ fuel ih =>
    intro i j size hi hj
    rw [extendBack]
    by_cases hc : alo < i && blo < j && a.getD (i - 1) ' ' == b.getD (j - 1) '!'
    · rw [if_pos hc]
      simp only [Bool.and_eq_true, decide_eq_true_eq] at hc
      have := ih (i - 1) (j - 1) (size + 1) (by omega) (by omega)
      refine ⟨this.1, this.2.1, ?_, ?_⟩
      · rw [this.2.2.1]
        omega
      · rw [this.2.2.2]
        omega
    · rw [if_neg hc]
      exact ⟨hi, hj, rfl, rfl⟩

/-- The forwards extension loop keeps the block inside the window. -/
theorem extendFwd_ok (a b : List Char) (ahi bhi i j : Nat) :
    ∀ (fuel size : Nat), i + size ≤ ahi → j + size ≤ bhi →
      i + extendFwd a b ahi bhi i j fuel size ≤ ahi ∧
        j + extendFwd a b ahi bhi i j fuel size ≤ bhi := by
  intro fuel
  induction fuel with
  | zero =>
    intro size hi hj
    exact ⟨hi, hj⟩
  | succ fuel ih =>
    intro size hi hj
    rw [extendFwd]
    by_cases hc : i + size < ahi && j + size < bhi && a.getD (i + size) ' ' == b.getD (j + size) '!'
    · rw [if_pos hc]
      simp only [Bool.and_eq_true, decide_eq_true_eq] at hc
      exact ih (size + 1) (by omega) (by omega)
    · rw [if_neg hc]
      exact ⟨hi, hj⟩

/-- find_longest_match returns a block inside the requested window. -/
theorem findLongestMatch_ok (a b : List Char) (b2j : List (Char × List Nat))
    (alo ahi blo bhi : Nat) (hab : alo ≤ ahi) (hbb : blo ≤ bhi) :
    alo ≤ (findLongestMatch a b b2j alo ahi blo bhi).1 ∧
      blo ≤ (findLongestMatch a b b2j alo ahi blo bhi).2.1 ∧
      (findLongestMatch a b b2j alo ahi blo bhi).1 +
        (findLongestMatch a b b2j alo ahi blo bhi).2.2 ≤ ahi ∧
      (findLongestMatch a b b2j alo ahi blo bhi).2.1 +
        (findLongestMatch a b b2j alo ahi blo bhi).2.2 ≤ bhi := by
  unfold findLongestMatch
  have hinit : alo ≤ ((alo, blo, 0) : Nat × Nat × Nat).1 ∧
      blo ≤ ((alo, blo, 0) : Nat × Nat × Nat).2.1 ∧
      ((alo, blo, 0) : Nat × Nat × Nat).1 + ((alo, blo, 0) : Nat × Nat × Nat).2.2 ≤ ahi ∧
      ((alo, blo, 0) : Nat × Nat × Nat).2.1 + ((alo, blo, 0) : Nat × Nat × Nat).2.2 ≤ bhi := by
    dsimp only
    exact ⟨le_refl _, le_refl _, by omega, by omega⟩
  have hrows := flmRows_ok a b2j alo ahi blo bhi
    (ahi - alo) alo [] (alo, blo, 0) (le_refl alo) (by omega)
    (by intro p hp; cases hp) hinit
  set best := flmRows a b2j blo bhi (ahi - alo) alo [] (alo, blo, 0) with hbdef
  have hback := extendBack_ok a b alo blo best.1 best.1 best.2.1 best.2.2
    hrows.1 hrows.2.1
  set back := extendBack a b alo blo best.1 best.1 best.2.1 best.2.2 with hbkdef
  have hfwd := extendFwd_ok a b ahi bhi back.1 back.2.1 ahi back.2.2
    (by omega) (by omega)
  exact ⟨hback.1, hback.2.1, hfwd.1, hfwd.2⟩

/-- The recursive matched total never exceeds either window size. -/
theorem matchedTot_le (a b : List Char) (b2j : List (Char × List Nat)) :
    ∀ (fuel alo ahi blo bhi : Nat), alo ≤ ahi → blo ≤ bhi →
      matchedTot a b b2j fuel alo ahi blo bhi ≤ ahi - alo ∧
        matchedTot a b b2j fuel alo ahi blo bhi ≤ bhi - blo := by
  intro fuel
  induction fuel with
  | zero =>
    intro alo ahi blo bhi _ _
    exact ⟨Nat.zero_le _, Nat.zero_le _⟩
  | succ fuel ih =>
    intro alo ahi blo bhi hab hbb
    rw [matchedTot]
    set m := findLongestMatch a b b2j alo ahi blo bhi with hmdef
    have hm := findLongestMatch_ok a b b2j alo ahi blo bhi hab hbb
    rw [← hmdef] at hm
    by_cases hz : m.2.2 = 0
    · rw [if_pos hz]
      exact ⟨Nat.zero_le _, Nat.zero_le _⟩
    · rw [if_neg hz]
      have hleft := ih alo m.1 blo m.2.1 hm.1 hm.2.1
      have hright := ih (m.1 + m.2.2) ahi (m.2.1 + m.2.2) bhi hm.2.2.1 hm.2.2.2
      constructor
      · omega
      · omega

/-- The matched character total of SequenceMatcher is bounded by both text
lengths. -/
theorem seqMatches_le (a b : List Char) :
    seqMatches a b ≤ a.length ∧ seqMatches a b ≤ b.length := by
  unfold seqMatches
  have := matchedTot_le a b (b2jOf b) (a.length + b.length + 1) 0 a.length 0 b.length
    (Nat.zero_le _) (Nat.zero_le _)
  simpa using this

/-- C8 amended: the sequence-ratio similarity need not be symmetric — the
two orders can disagree, as tide/diet shows — but in either order the
score always lies in [0, 100]. -/
theorem C8_similarity_bounds (t1 t2 : String) :
    0 ≤ calculate_similarity t1 t2 ∧ calculate_similarity t1 t2 ≤ 100 := by
  unfold calculate_similarity seqRatioQ
  dsimp only
  by_cases hn : t1.data.length + t2.data.length = 0
  · rw [if_pos hn]
    norm_num
  · rw [if_neg hn]
    have hM := seqMatches_le t1.data t2.data
    have hnpos : (0 : ℚ) < ((t1.data.length + t2.data.length : ℕ) : ℚ) := by
      have : 0 < t1.data.length + t2.data.length := Nat.pos_of_ne_zero hn
      exact_mod_cast this
    have h2M : 2 * (seqMatches t1.data t2.data : ℚ) ≤
        ((t1.data.length + t2.data.length : ℕ) : ℚ) := by
      have h := Nat.add_le_add hM.1 hM.2
      have : 2 * seqMatches t1.data t2.data ≤ t1.data.length + t2.data.length := by omega
      exact_mod_cast this
    have hdiv : 2 * (seqMatches t1.data t2.data : ℚ) /
        ((t1.data.length + t2.data.length : ℕ) : ℚ) ≤ 1 := by
      rw [div_le_one hnpos]
      exact h2M
    have hdiv0 : 0 ≤ 2 * (seqMatches t1.data t2.data : ℚ) /
        ((t1.data.length + t2.data.length : ℕ) : ℚ) := by positivity
    constructor
    · nlinarith
    · nlinarith

/-- C8 counterexample: the sequence-ratio similarity is not symmetric; the
pair ("tide", "diet") scores 25 one way and 50 the other. -/
theorem C8_counterexample_tide_diet :
    calculate_similarity "tide" "diet" = 25 ∧
      calculate_similarity "diet" "tide" = 50 ∧
      calculate_similarity "tide" "diet" ≠ calculate_similarity "diet" "tide" := by
  have h1 : seqMatches "tide".data "diet".data = 1 := by decide
  have h2 : seqMatches "diet".data "tide".data = 2 := by decide
  have l1 : "tide".data.length = 4 := rfl
  have l2 : "diet".data.length = 4 := rfl
  have e1 : calculate_similarity "tide" "diet" = 25 := by
    simp only [calculate_similarity, seqRatioQ, h1, h2, l1, l2]
    norm_num
  have e2 : calculate_similarity "diet" "tide" = 50 := by
    simp only [calculate_similarity, seqRatioQ, h1, h2, l1, l2]
    norm_num
  refine ⟨e1, e2, ?_⟩
  rw [e1, e2]
  norm_num

/-- ASCII case folding preserves word-character-ness. -/
theorem isWordChar_pyLowerChar (c : Char) : isWordChar (pyLowerChar c) = isWordChar c := by
  unfold isWordChar pyLowerChar Char.toLower
  by_cases h : c.toNat ≥ 65 ∧ c.toNat ≤ 90
  · rw [if_pos h]
    have hv : Nat.isValidChar (c.toNat + 32) := Or.inl (by omega)
    have htn : (Char.ofNat (c.toNat + 32)).toNat = c.toNat + 32 := by
      rw [Char.ofNat, dif_pos hv]
      rfl
    have hlow : (Char.ofNat (c.toNat + 32)).isLower = true := by
      simp only [Char.isLower, Bool.and_eq_true, decide_eq_true_eq]
      constructor
      · show (97 : UInt32).toNat ≤ (Char.ofNat (c.toNat + 32)).val.toNat
        rw [(rfl : ((97 : UInt32).toNat) = 97)]
        show 97 ≤ (Char.ofNat (c.toNat + 32)).toNat
        omega
      · show (Char.ofNat (c.toNat + 32)).val.toNat ≤ (122 : UInt32).toNat
        rw [(rfl : ((122 : UInt32).toNat) = 122)]
        show (Char.ofNat (c.toNat + 32)).toNat ≤ 122
        omega
    have hup : c.isUpper = true := by
      simp only [Char.isUpper, Bool.and_eq_true, decide_eq_true_eq]
      constructor
      · show (65 : UInt32).toNat ≤ c.val.toNat
        exact h.1
      · show c.val.toNat ≤ (90 : UInt32).toNat
        exact h.2
    simp [Char.isAlphanum, Char.isAlpha, hlow, hup]
  · rw [if_neg h]

/-- A text without word characters has no word boundary at any position. -/
theorem isBoundary_eq_false (t : List Char) (h : ∀ c ∈ t, isWordChar c = false)
    (pos : Nat) : isBoundary t pos = false := by
  unfold isBoundary wordAt
  have hw : ∀ i, (if hi : i < t.length then isWordChar (t.get ⟨i, hi⟩) else false) = false := by
    intro i
    split
    · exact h _ (t.get_mem _ _)
    · rfl
  rw [hw, hw]
  cases pos <;> simp

/-- The word-token pattern starts with a word boundary, so it cannot match
anywhere in a boundary-free text, whatever the fuel. -/
theorem mrun_wordToken_none (t : List Char) (hb : ∀ pos, isBoundary t pos = false) :
    ∀ (fuel pos : Nat) (caps : Caps) (k : Nat → Caps → Option (Nat × Caps)),
      mrun t fuel (Rx.cat .wordB (Rx.cat (rplus (.cls isWordChar)) .wordB)) pos caps k =
        none := by
  intro fuel
  match fuel with
  | 0 => intro pos caps k; rfl
  | 0 + 1 => intro pos caps k; rfl
  | fuel + 1 + 1 =>
    intro pos caps k
    show (if isBoundary t pos then _ else none : Option (Nat × Caps)) = none
    rw [hb pos]
    simp

/-- A text without word characters yields no word tokens. -/
theorem wordTokens_nil (t : String) (h : ∀ c ∈ t.data, isWordChar c = false) :
    wordTokens t = [] := by
  have hl : ∀ c ∈ (pyLower t).data, isWordChar c = false := by
    intro c hc
    have hdata : (pyLower t).data = t.data.map pyLowerChar := rfl
    rw [hdata, List.mem_map] at hc
    obtain ⟨c0, hc0, rfl⟩ := hc
    rw [isWordChar_pyLowerChar]
    exact h c0 hc0
  have hb := isBoundary_eq_false (pyLower t).data hl
  have htm : ∀ pos, tryMatch (pyLower t).data rxWordToken pos = none := by
    intro pos
    unfold tryMatch rxWordToken
    exact mrun_wordToken_none _ hb _ pos [] _
  have hsf : ∀ pos, searchFrom (pyLower t).data rxWordToken pos = none := by
    intro pos
    unfold searchFrom
    generalize (pyLower t).data.length + 1 - pos = m
    induction m generalizing pos with
    | zero => rfl
    | succ m ih =>
      show (match tryMatch (pyLower t).data rxWordToken pos with
        | some (e, c) => some (pos, e, c)
        | none => searchFromAux (pyLower t).data rxWordToken (pos + 1) m) = none
      rw [htm pos]
      exact ih (pos + 1)
  have hfa : ∀ pos rem, findAllAux (pyLower t).data rxWordToken pos rem = [] := by
    intro pos rem
    cases rem with
    | zero => rfl
    | succ rem =>
      show (match searchFrom (pyLower t).data rxWordToken pos with
        | none => []
        | some (s, e, c) =>
          (s, e, c) :: findAllAux (pyLower t).data rxWordToken (if e = s then e + 1 else e) rem) = []
      rw [hsf pos]
  unfold wordTokens findallStrings findAll
  rw [hfa]
  rfl

/-- dkf returns a duplicate-free list. -/
theorem nodup_dkf (l : List String) : (dkf l).Nodup := by
  induction l using dkf.induct with
  | case1 => simp [dkf]
  | case2 x xs ih =>
    rw [dkf, List.nodup_cons]
    refine ⟨?_, ih⟩
    rw [mem_dkf, List.mem_filter]
    simp

/-- dedupKeepFirst returns a duplicate-free list. -/
theorem nodup_dedupKeepFirst (l : List String) : (dedupKeepFirst l).Nodup := by
  rw [dedupKeepFirst_eq_dkf]
  exact nodup_dkf l

/-- Membership in dedupKeepFirst is membership in the input. -/
theorem mem_dedupKeepFirst {l : List String} {y : String} :
    y ∈ dedupKeepFirst l ↔ y ∈ l := by
  rw [dedupKeepFirst_eq_dkf]
  exact mem_dkf

/-- The intersection count never exceeds the union count. -/
theorem inter_le_uni (t1 t2 : String) :
    ((wordSet t1).filter (fun w => w ∈ wordSet t2)).length ≤
      (dedupKeepFirst (wordTokens t1 ++ wordTokens t2)).length := by
  have h1 : ((wordSet t1).filter (fun w => w ∈ wordSet t2)).Nodup :=
    (nodup_dedupKeepFirst _).filter _
  have h2 : (dedupKeepFirst (wordTokens t1 ++ wordTokens t2)).Nodup :=
    nodup_dedupKeepFirst _
  have hsub : ((wordSet t1).filter (fun w => w ∈ wordSet t2)) ⊆
      dedupKeepFirst (wordTokens t1 ++ wordTokens t2) := by
    intro a ha
    rw [List.mem_filter] at ha
    have ha1 : a ∈ wordTokens t1 := by
      have := ha.1
      unfold wordSet at this
      exact mem_dedupKeepFirst.mp this
    rw [mem_dedupKeepFirst]
    exact List.mem_append_left _ ha1
  have hc1 := List.toFinset_card_of_nodup h1
  have hc2 := List.toFinset_card_of_nodup h2
  have hfsub : ((wordSet t1).filter (fun w => w ∈ wordSet t2)).toFinset ⊆
      (dedupKeepFirst (wordTokens t1 ++ wordTokens t2)).toFinset := by
    intro a ha
    rw [List.mem_toFinset] at ha ⊢
    exact hsub ha
  have := Finset.card_le_card hfsub
  omega

/-- Python round(x, 4) stays inside [0, 1] on inputs from [0, 1]. -/
theorem pyRound4_bounds (x : ℚ) (h0 : 0 ≤ x) (h1 : x ≤ 1) :
    0 ≤ pyRound4 x ∧ pyRound4 x ≤ 1 := by
  unfold pyRound4
  dsimp only
  have hy0 : (0 : ℚ) ≤ x * 10000 := by positivity
  have hy1 : x * 10000 ≤ 10000 := by linarith
  have hf0 : (0 : ℤ) ≤ ⌊x * 10000⌋ := Int.floor_nonneg.mpr hy0
  have hfle : (⌊x * 10000⌋ : ℚ) ≤ x * 10000 := Int.floor_le _
  have hbounds : ∀ n : ℤ, 0 ≤ n → n ≤ 10000 → 0 ≤ (n : ℚ) / 10000 ∧ (n : ℚ) / 10000 ≤ 1 := by
    intro n hn0 hn1
    constructor
    · positivity
    · rw [div_le_one (by norm_num)]
      exact_mod_cast hn1
  have hat : ⌊x * 10000⌋ ≤ 10000 := by
    have : (⌊x * 10000⌋ : ℚ) ≤ 10000 := le_trans hfle hy1
    exact_mod_cast this
  have hplus : ¬(x * 10000 - ⌊x * 10000⌋ < 1 / 2) → ⌊x * 10000⌋ + 1 ≤ 10000 := by
    intro hA
    push_neg at hA
    have : (⌊x * 10000⌋ : ℚ) + 1 / 2 ≤ x * 10000 := by linarith
    have hlt : (⌊x * 10000⌋ : ℚ) < 10000 := by linarith
    have : ⌊x * 10000⌋ < 10000 := by exact_mod_cast hlt
    omega
  split_ifs with hA hB hC
  · exact hbounds _ hf0 hat
  · exact hbounds _ (by omega) (hplus (by linarith))
  · exact hbounds _ hf0 hat
  · exact hbounds _ (by omega) (hplus hA)

/-- C10 amended: when neither text contains a word character the function
returns 0 (no division by zero); when the union of the word sets is not
empty it returns round(intersection/union, 4) — the Jaccard ratio rounded
half-to-even to four decimal places, floats idealised as rationals — and in
every case the returned value lies in [0, 1]. -/
theorem C10_jaccard_rounded (t1 t2 : String) :
    (((∀ c ∈ t1.data, isWordChar c = false) ∧ (∀ c ∈ t2.data, isWordChar c = false)) →
        calculate_text_similarity t1 t2 = 0) ∧
      (0 < (dedupKeepFirst (wordTokens t1 ++ wordTokens t2)).length →
        calculate_text_similarity t1 t2 =
          pyRound4 ((((wordSet t1).filter (fun w => w ∈ wordSet t2)).length : ℚ) /
            ((dedupKeepFirst (wordTokens t1 ++ wordTokens t2)).length : ℚ))) ∧
      0 ≤ calculate_text_similarity t1 t2 ∧ calculate_text_similarity t1 t2 ≤ 1 := by
  refine ⟨?_, ?_, ?_⟩
  · rintro ⟨h1, h2⟩
    unfold calculate_text_similarity
    rw [wordTokens_nil t1 h1, wordTokens_nil t2 h2]
    rfl
  · intro hu
    unfold calculate_text_similarity
    rw [if_pos hu]
  · by_cases hu : 0 < (dedupKeepFirst (wordTokens t1 ++ wordTokens t2)).length
    · have heq : calculate_text_similarity t1 t2 =
          pyRound4 ((((wordSet t1).filter (fun w => w ∈ wordSet t2)).length : ℚ) /
            ((dedupKeepFirst (wordTokens t1 ++ wordTokens t2)).length : ℚ)) := by
        unfold calculate_text_similarity
        rw [if_pos hu]
      rw [heq]
      apply pyRound4_bounds
      · positivity
      · rw [div_le_one (by exact_mod_cast hu)]
        exact_mod_cast inter_le_uni t1 t2
    · have heq : calculate_text_similarity t1 t2 = 0 := by
        unfold calculate_text_similarity
        rw [if_neg hu]
      rw [heq]
      norm_num

/-- C10 witness: empty-word texts map to 0; word-bearing texts compute the
rounded Jaccard ratio inside the bounds. -/
theorem C10_witness :
    calculate_text_similarity "!!" "??" = 0 ∧
      (0 ≤ calculate_text_similarity "a b" "a c" ∧
        calculate_text_similarity "a b" "a c" ≤ 1) :=
  ⟨(C10_jaccard_rounded "!!" "??").1 ⟨by decide, by decide⟩,
    (C10_jaccard_rounded "a b" "a c").2.2⟩

/-- C10 counterexample: on texts with word sets {a,b} and {a,c} the
returned value is the rounded 3333/10000, not the exact Jaccard ratio 1/3:
the code rounds to four decimal places. -/
theorem C10_counterexample_rounding :
    calculate_text_similarity "a b" "a c" = 3333 / 10000 ∧
      (3333 / 10000 : ℚ) ≠ 1 / 3 := by
  have hi : ((wordSet "a b").filter (fun w => w ∈ wordSet "a c")).length = 1 := by decide
  have hu : (dedupKeepFirst (wordTokens "a b" ++ wordTokens "a c")).length = 3 := by decide
  have hfloor : ⌊(1 : ℚ) / 3 * 10000⌋ = 3333 := by norm_num
  constructor
  · simp only [calculate_text_similarity, hi, hu]
    norm_num [pyRound4, hfloor]
  · norm_num

/-- Appending different suffixes after the colon yields different citation
keys (the suffix is recoverable). -/
theorem citation_suffix_inj (A : String) {x y : String}
    (h : A ++ ":" ++ x = A ++ ":" ++ y) : x = y := by
  have hd := congrArg String.data h
  rw [String.data_append, String.data_append, String.data_append,
    String.data_append] at hd
  have hxy : x.data = y.data := List.append_cancel_left hd
  cases x
  cases y
  exact congrArg String.mk hxy

/-- The category half of a citation key is recoverable: it is the text
before the first colon (the category names contain no colon). -/
theorem citation_category_eq {A B x y : String}
    (hA : (A ++ ":" ++ x).data.takeWhile (fun c => c ≠ ':') = A.data)
    (hB : (B ++ ":" ++ y).data.takeWhile (fun c => c ≠ ':') = B.data)
    (h : A ++ ":" ++ x = B ++ ":" ++ y) : A = B := by
  have hd := congrArg (fun s : String => s.data.takeWhile (fun c => c ≠ ':')) h
  simp only at hd
  rw [hA, hB] at hd
  cases A
  cases B
  exact congrArg String.mk hd

/-- The four citation category blocks of citPairs, spelled out. -/
theorem citationStrings_eq (text : String) :
    citationStrings text =
      (dedupKeepFirst (citationRaw text "case_citations")).map
          (fun c => "case_citations" ++ ":" ++ c)
        ++ ((dedupKeepFirst (citationRaw text "statute_citations")).map
          (fun c => "statute_citations" ++ ":" ++ c)
        ++ ((dedupKeepFirst (citationRaw text "constitution_citations")).map
          (fun c => "constitution_citations" ++ ":" ++ c)
        ++ (dedupKeepFirst (citationRaw text "section_citations")).map
          (fun c => "section_citations" ++ ":" ++ c))) := by
  have e1 : citationRaw text "case_citations" =
      citationRawOf text [(rxCase1, 0), (rxCase2, 0), (rxCase3, 0), (rxCase4, 0)] := rfl
  have e2 : citationRaw text "statute_citations" =
      citationRawOf text [(rxStatute "Act", 1), (rxStatute "Rules", 1), (rxStatute "Regulation", 1)] := rfl
  have e3 : citationRaw text "constitution_citations" =
      citationRawOf text [(rxConst1, 1), (rxConst2, 3), (rxConst3, 1)] := rfl
  have e4 : citationRaw text "section_citations" =
      citationRawOf text [(rxSect1, 2), (rxSect2, 1)] := rfl
  rw [e1, e2, e3, e4]
  unfold citationStrings citPairs extract_citations citationPatterns
  simp [List.map_append, List.map_map, Function.comp_def]

/-- The per-document citation keys are pairwise distinct: within one
category the citations were deduplicated, and across categories the key
prefixes differ. -/
theorem citationStrings_nodup (text : String) : (citationStrings text).Nodup := by
  rw [citationStrings_eq]
  have hinj : ∀ A : String, Function.Injective (fun c => A ++ ":" ++ c) := by
    intro A c1 c2 h
    exact citation_suffix_inj A h
  have hn : ∀ (A : String) (l : List String), l.Nodup →
      ((l.map (fun c => A ++ ":" ++ c)).Nodup) := by
    intro A l hl
    exact hl.map (hinj A)
  have hcase : ∀ x : String,
      ("case_citations" ++ ":" ++ x).data.takeWhile (fun c => c ≠ ':') =
        "case_citations".data := fun x => rfl
  have hstat : ∀ x : String,
      ("statute_citations" ++ ":" ++ x).data.takeWhile (fun c => c ≠ ':') =
        "statute_citations".data := fun x => rfl
  have hconst : ∀ x : String,
      ("constitution_citations" ++ ":" ++ x).data.takeWhile (fun c => c ≠ ':') =
        "constitution_citations".data := fun x => rfl
  have hsect : ∀ x : String,
      ("section_citations" ++ ":" ++ x).data.takeWhile (fun c => c ≠ ':') =
        "section_citations".data := fun x => rfl
  have hdisj : ∀ (A B : String),
      (∀ x : String, (A ++ ":" ++ x).data.takeWhile (fun c => c ≠ ':') = A.data) →
      (∀ x : String, (B ++ ":" ++ x).data.takeWhile (fun c => c ≠ ':') = B.data) →
      A ≠ B → ∀ (l1 l2 : List String) (a : String),
        a ∈ l1.map (fun c => A ++ ":" ++ c) → a ∉ l2.map (fun c => B ++ ":" ++ c) := by
    intro A B hA hB hAB l1 l2 a ha hb
    rw [List.mem_map] at ha hb
    obtain ⟨x, _, hax⟩ := ha
    obtain ⟨y, _, hay⟩ := hb
    apply hAB
    exact citation_category_eq (hA x) (hB y) (hax.trans hay.symm)
  rw [List.nodup_append, List.nodup_append, List.nodup_append]
  refine ⟨hn _ _ (nodup_dedupKeepFirst _),
    ⟨hn _ _ (nodup_dedupKeepFirst _),
      ⟨hn _ _ (nodup_dedupKeepFirst _), hn _ _ (nodup_dedupKeepFirst _), ?_⟩, ?_⟩, ?_⟩
  · intro a ha hb
    exact hdisj "constitution_citations" "section_citations" hconst hsect
      (by decide) _ _ a ha hb
  · intro a ha hb
    rcases List.mem_append.mp hb with hb | hb
    · exact hdisj "statute_citations" "constitution_citations" hstat hconst
        (by decide) _ _ a ha hb
    · exact hdisj "statute_citations" "section_citations" hstat hsect
        (by decide) _ _ a ha hb
  · intro a ha hb
    rcases List.mem_append.mp hb with hb | hb
    · exact hdisj "case_citations" "statute_citations" hcase hstat
        (by decide) _ _ a ha hb
    rcases List.mem_append.mp hb with hb | hb
    · exact hdisj "case_citations" "constitution_citations" hcase hconst
        (by decide) _ _ a ha hb
    · exact hdisj "case_citations" "section_citations" hcase hsect
        (by decide) _ _ a ha hb



/-- hasNode tested through the node-name list. -/
theorem hasNode_iff (G : PyGraph) (n : String) :
    hasNode G n = true ↔ n ∈ G.nodes.map (fun p => p.1) := by
  unfold hasNode
  rw [List.any_eq_true]
  simp only [List.mem_map, decide_eq_true_eq]

/-- Adding a fresh typed node appends it. -/
theorem addNodeTyped_fresh (G : PyGraph) (n ty : String)
    (h : n ∉ G.nodes.map (fun p => p.1)) :
    addNodeTyped G n ty = ⟨G.nodes ++ [(n, some ty)], G.edges⟩ := by
  unfold addNodeTyped
  have hf : hasNode G n = false := by
    rw [← Bool.not_eq_true, hasNode_iff]
    exact h
  rw [hf]
  simp

/-- add_edge between two present nodes along a fresh key appends the
edge. -/
theorem addEdge_present_fresh (G : PyGraph) (u v : String)
    (hu : hasNode G u = true) (hv : hasNode G v = true)
    (hne : ∀ e ∈ G.edges, ¬(e.1 = u ∧ e.2.1 = v)) :
    addEdge G u v none = ⟨G.nodes, G.edges ++ [(u, v, none)]⟩ := by
  unfold addEdge
  have h1 : addNodeBare G u = G := by
    unfold addNodeBare
    rw [hu]
    simp
  have h2 : addNodeBare (addNodeBare G u) v = G := by
    rw [h1]
    unfold addNodeBare
    rw [hv]
    simp
  rw [h2]
  dsimp only
  have he : hasEdge G u v = false := by
    rw [← Bool.not_eq_true]
    unfold hasEdge
    rw [List.any_eq_true]
    rintro ⟨e, hel, hep⟩
    simp only [Bool.and_eq_true, decide_eq_true_eq] at hep
    exact hne e hel hep
  rw [he]
  simp

/-- Inserting a fresh key into a dict appends the binding. -/
theorem dictInsert_fresh {α : Type} (m : List (String × α)) (k : String) (v : α)
    (h : ∀ p ∈ m, p.1 ≠ k) : dictInsert m k v = m ++ [(k, v)] := by
  unfold dictInsert
  have hf : m.any (fun p => p.1 = k) = false := by
    rw [← Bool.not_eq_true, List.any_eq_true]
    rintro ⟨p, hp, he⟩
    exact h p hp (of_decide_eq_true he)
  rw [hf]
  simp

/-- Appending under a fresh key creates a one-element bucket at the end. -/
theorem dictAppend_fresh (m : List (String × List String)) (k v : String)
    (h : ∀ p ∈ m, p.1 ≠ k) : dictAppend m k v = m ++ [(k, [v])] := by
  unfold dictAppend
  have hf : m.any (fun p => p.1 = k) = false := by
    rw [← Bool.not_eq_true, List.any_eq_true]
    rintro ⟨p, hp, he⟩
    exact h p hp (of_decide_eq_true he)
  rw [hf]
  simp

/-- The citation loop of addDoc: with the document node present, fresh
duplicate-free citation keys and no clashing edges, it appends exactly one
typed node and one document-to-citation edge per citation. -/
theorem addCits_eq (name : String) :
    ∀ (ps : List (String × String)) (G : PyGraph),
      hasNode G name = true →
      (ps.map (fun q => q.2)).Nodup →
      (∀ q ∈ ps, q.2 ∉ G.nodes.map (fun p => p.1)) →
      (∀ q ∈ ps, q.2 ≠ name) →
      (∀ q ∈ ps, ∀ e ∈ G.edges, ¬(e.1 = name ∧ e.2.1 = q.2)) →
      ps.foldl (fun G q =>
        addEdge (if hasNode G q.2 then G else addNodeTyped G q.2 q.1) name q.2 none) G =
        ⟨G.nodes ++ ps.map (fun q => (q.2, some q.1)),
         G.edges ++ ps.map (fun q => (name, q.2, none))⟩ := by
  intro ps
  induction ps with
  | nil =>
    intro G _ _ _ _ _
    simp
  | cons q ps ih =>
    intro G hname hnodup hfresh hnotname hedges
    rw [List.foldl_cons]
    have hq2 : q.2 ∉ G.nodes.map (fun p => p.1) := hfresh q (List.mem_cons_self q ps)
    have hqn : hasNode G q.2 = false := by
      rw [← Bool.not_eq_true, hasNode_iff]
      exact hq2
    rw [hqn]
    simp only [Bool.false_eq_true, if_false]
    rw [addNodeTyped_fresh G q.2 q.1 hq2]
    have hGn : hasNode (⟨G.nodes ++ [(q.2, some q.1)], G.edges⟩ : PyGraph) name = true := by
      rw [hasNode_iff]
      simp only [List.map_append]
      exact List.mem_append_left _ ((hasNode_iff G name).mp hname)
    have hGq : hasNode (⟨G.nodes ++ [(q.2, some q.1)], G.edges⟩ : PyGraph) q.2 = true := by
      rw [hasNode_iff]
      simp
    rw [addEdge_present_fresh _ name q.2 hGn hGq
      (fun e hel => hedges q (List.mem_cons_self q ps) e hel)]
    rw [List.map_cons, List.nodup_cons] at hnodup
    rw [ih ⟨G.nodes ++ [(q.2, some q.1)], G.edges ++ [(name, q.2, none)]⟩
      (by
        rw [hasNode_iff]
        simp only [List.map_append]
        exact List.mem_append_left _ ((hasNode_iff G name).mp hname))
      hnodup.2
      (by
        intro q' hq'
        simp only [List.map_append, List.mem_append, List.map_cons, List.map_nil,
          List.mem_singleton]
        rintro (hold | hnew)
        · exact hfresh q' (List.mem_cons_of_mem q hq') hold
        · apply hnodup.1
          rw [← hnew]
          exact List.mem_map_of_mem (fun q => q.2) hq')
      (fun q' hq' => hnotname q' (List.mem_cons_of_mem q hq'))
      (by
        intro q' hq' e hel
        rcases List.mem_append.mp hel with hold | hnew
        · exact hedges q' (List.mem_cons_of_mem q hq') e hold
        · rw [List.mem_singleton] at hnew
          subst hnew
          rintro ⟨-, hc2⟩
          apply hnodup.1
          have hc2q : q.2 = q'.2 := hc2
          rw [hc2q]
          exact List.mem_map_of_mem (fun q => q.2) hq')]
    simp

/-- addDoc on a fresh document appends the document node, its citation
nodes and its citation edges, and records its citations in
doc_citations. -/
theorem addDoc_eq (G : PyGraph) (dc : List (String × List String)) (d : Doc)
    (hG : docName d ∉ G.nodes.map (fun p => p.1))
    (hcits : ∀ c ∈ citationStrings d.2.1, c ∉ G.nodes.map (fun p => p.1))
    (hself : docName d ∉ citationStrings d.2.1)
    (hedges : ∀ e ∈ G.edges, e.1 ≠ docName d)
    (hkeys : ∀ p ∈ dc, p.1 ≠ docName d) :
    addDoc (G, dc) d =
      (⟨G.nodes ++ ((docName d, some "document") ::
          (citPairs d.2.1).map (fun q => (q.2, some q.1))),
        G.edges ++ (citPairs d.2.1).map (fun q => (docName d, q.2, none))⟩,
       dc ++ [(docName d, citationStrings d.2.1)]) := by
  unfold addDoc
  dsimp only
  rw [addNodeTyped_fresh G (docName d) "document" hG]
  rw [addCits_eq (docName d) (citPairs d.2.1)
    ⟨G.nodes ++ [(docName d, some "document")], G.edges⟩
    (by
      rw [hasNode_iff]
      simp)
    (citationStrings_nodup d.2.1)
    (by
      intro q hq
      simp only [List.map_append, List.mem_append, List.map_cons, List.map_nil,
        List.mem_singleton]
      have hqc : q.2 ∈ citationStrings d.2.1 := List.mem_map_of_mem (fun q => q.2) hq
      rintro (hold | hnew)
      · exact hcits q.2 hqc hold
      · exact hself (hnew ▸ hqc)
    )
    (by
      intro q hq he
      apply hself
      rw [← he]
      exact List.mem_map_of_mem (fun q => q.2) hq)
    (by
      intro q hq e hel
      rintro ⟨hc1, -⟩
      exact hedges e hel hc1)]
  rw [dictInsert_fresh dc (docName d) (citationStrings d.2.1) hkeys]
  simp


/-- The document loop of build_citation_network, fully characterised for a
fresh, mutually non-clashing document list. -/
theorem phase1_eq :
    ∀ (ds : List Doc) (G : PyGraph) (dc : List (String × List String)),
      (∀ d ∈ ds, docName d ∉ G.nodes.map (fun p => p.1)) →
      (∀ d ∈ ds, ∀ c ∈ citationStrings d.2.1, c ∉ G.nodes.map (fun p => p.1)) →
      (∀ d ∈ ds, docName d ∉ citationStrings d.2.1) →
      (∀ d ∈ ds, ∀ e ∈ G.edges, e.1 ≠ docName d) →
      (∀ d ∈ ds, ∀ p ∈ dc, p.1 ≠ docName d) →
      ds.Pairwise (fun d1 d2 => docName d1 ≠ docName d2 ∧
        (∀ c ∈ citationStrings d1.2.1, c ∉ citationStrings d2.2.1) ∧
        docName d1 ∉ citationStrings d2.2.1 ∧ docName d2 ∉ citationStrings d1.2.1) →
      ds.foldl addDoc (G, dc) =
        (⟨G.nodes ++ ds.flatMap (fun d => (docName d, some "document") ::
            (citPairs d.2.1).map (fun q => (q.2, some q.1))),
          G.edges ++ ds.flatMap (fun d =>
            (citPairs d.2.1).map (fun q => (docName d, q.2, none)))⟩,
         dc ++ ds.map (fun d => (docName d, citationStrings d.2.1))) := by
  intro ds
  induction ds with
  | nil =>
    intro G dc _ _ _ _ _ _
    simp
  | cons d ds ih =>
    intro G dc hG hcits hself hedges hkeys hpw
    rw [List.pairwise_cons] at hpw
    rw [List.foldl_cons]
    rw [addDoc_eq G dc d (hG d (List.mem_cons_self d ds))
      (hcits d (List.mem_cons_self d ds)) (hself d (List.mem_cons_self d ds))
      (hedges d (List.mem_cons_self d ds)) (hkeys d (List.mem_cons_self d ds))]
    have hq2c : ∀ q ∈ citPairs d.2.1, q.2 ∈ citationStrings d.2.1 := by
      intro q hq
      exact List.mem_map_of_mem (fun q => q.2) hq
    rw [ih _ _
      (by
        intro d' hd'
        simp only [List.map_append, List.mem_append, List.map_cons, List.mem_cons,
          List.map_map]
        rintro (hold | hnew)
        · exact hG d' (List.mem_cons_of_mem d hd') hold
        · rcases hnew with hdoc | hcit
          · exact (hpw.1 d' hd').1 hdoc.symm
          · rw [List.mem_map] at hcit
            obtain ⟨q, hq, he⟩ := hcit
            have hq2 : q.2 = docName d' := he
            have : docName d' ∈ citationStrings d.2.1 := by
              rw [← hq2]
              exact hq2c q hq
            exact (hpw.1 d' hd').2.2.2 this)
      (by
        intro d' hd' c hc
        simp only [List.map_append, List.mem_append, List.map_cons, List.mem_cons,
          List.map_map]
        rintro (hold | hnew)
        · exact hcits d' (List.mem_cons_of_mem d hd') c hc hold
        · rcases hnew with hdoc | hcit
          · exact (hpw.1 d' hd').2.2.1 (hdoc ▸ hc)
          · rw [List.mem_map] at hcit
            obtain ⟨q, hq, he⟩ := hcit
            have hq2 : q.2 = c := he
            have hcq : c ∈ citationStrings d.2.1 := by
              rw [← hq2]
              exact hq2c q hq
            exact (hpw.1 d' hd').2.1 c hcq hc)
      (fun d' hd' => hself d' (List.mem_cons_of_mem d hd'))
      (by
        intro d' hd' e hel
        rcases List.mem_append.mp hel with hold | hnew
        · exact hedges d' (List.mem_cons_of_mem d hd') e hold
        · rw [List.mem_map] at hnew
          obtain ⟨q, hq, he⟩ := hnew
          have he1 : e.1 = docName d := by
            rw [← he]
          rw [he1]
          exact (hpw.1 d' hd').1)
      (by
        intro d' hd' p hp
        rcases List.mem_append.mp hp with hold | hnew
        · exact hkeys d' (List.mem_cons_of_mem d hd') p hold
        · rw [List.mem_singleton] at hnew
          subst hnew
          exact (hpw.1 d' hd').1)
      hpw.2]
    simp

/-- Folding dictAppend over fresh duplicate-free keys appends singleton
buckets. -/
theorem inner_c2d (nm : String) :
    ∀ (cs : List String) (m : List (String × List String)),
      cs.Nodup → (∀ c ∈ cs, ∀ p ∈ m, p.1 ≠ c) →
      cs.foldl (fun m c => dictAppend m c nm) m = m ++ cs.map (fun c => (c, [nm])) := by
  intro cs
  induction cs with
  | nil =>
    intro m _ _
    simp
  | cons c cs ih =>
    intro m hnodup hfresh
    rw [List.nodup_cons] at hnodup
    rw [List.foldl_cons, dictAppend_fresh m c nm (hfresh c (List.mem_cons_self c cs))]
    rw [ih (m ++ [(c, [nm])]) hnodup.2
      (by
        intro c' hc' p hp
        rcases List.mem_append.mp hp with hold | hnew
        · exact hfresh c' (List.mem_cons_of_mem c hc') p hold
        · rw [List.mem_singleton] at hnew
          subst hnew
          intro hcontra
          have hcc : c = c' := hcontra
          exact hnodup.1 (by rw [hcc]; exact hc'))]
    simp

/-- With duplicate-free, pairwise-disjoint citation lists no bucket of the
inverse index ever reaches two entries. -/
theorem citationToDocs_short :
    ∀ (dcs : List (String × List String)) (m : List (String × List String)),
      (∀ p ∈ m, p.2.length ≤ 1) →
      (∀ p ∈ m, ∀ q ∈ dcs, p.1 ∉ q.2) →
      (∀ q ∈ dcs, q.2.Nodup) →
      dcs.Pairwise (fun q1 q2 => ∀ c ∈ q1.2, c ∉ q2.2) →
      ∀ p ∈ dcs.foldl (fun m q => q.2.foldl (fun m c => dictAppend m c q.1) m) m,
        p.2.length ≤ 1 := by
  intro dcs
  induction dcs with
  | nil =>
    intro m hshort _ _ _ p hp
    exact hshort p hp
  | cons q dcs ih =>
    intro m hshort hdisjm hnodup hpw
    rw [List.pairwise_cons] at hpw
    rw [List.foldl_cons]
    rw [inner_c2d q.1 q.2 m (hnodup q (List.mem_cons_self q dcs))
      (by
        intro c hc p hp
        intro hcontra
        exact hdisjm p hp q (List.mem_cons_self q dcs) (hcontra ▸ hc))]
    apply ih
    · intro p hp
      rcases List.mem_append.mp hp with hold | hnew
      · exact hshort p hold
      · rw [List.mem_map] at hnew
        obtain ⟨c, hc, he⟩ := hnew
        rw [← he]
        simp
    · intro p hp q' hq'
      rcases List.mem_append.mp hp with hold | hnew
      · exact hdisjm p hold q' (List.mem_cons_of_mem q hq')
      · rw [List.mem_map] at hnew
        obtain ⟨c, hc, he⟩ := hnew
        rw [← he]
        exact hpw.1 q' hq' c hc
    · intro q' hq'
      exact hnodup q' (List.mem_cons_of_mem q hq')
    · exact hpw.2

/-- The co-citation loop does nothing when no citation has two citing
documents. -/
theorem phase3_noop (entries : List (String × List String)) :
    ∀ G : PyGraph, (∀ p ∈ entries, p.2.length ≤ 1) →
      entries.foldl (fun G p => if 1 < p.2.length then addPairs G p.2 p.1 else G) G = G := by
  induction entries with
  | nil =>
    intro G _
    rfl
  | cons q entries ih =>
    intro G hshort
    rw [List.foldl_cons]
    have hq : ¬1 < q.2.length := by
      have := hshort q (List.mem_cons_self q entries)
      omega
    rw [if_neg hq]
    exact ih G (fun p hp => hshort p (List.mem_cons_of_mem q hp))

/-- Length of the interleaved node inventory. -/
theorem flatMap_inventory_length (ds : List Doc) :
    (ds.flatMap (fun d => docName d :: citationStrings d.2.1)).length =
      ds.length + (ds.map (fun d => (citationStrings d.2.1).length)).sum := by
  induction ds with
  | nil => rfl
  | cons d ds ih =>
    simp only [List.flatMap_cons, List.length_append, List.length_cons, ih,
      List.map_cons, List.sum_cons]
    omega


/-- The node names of the inventory are the document names interleaved with
their citation keys. -/
theorem map_fst_inventory (ds : List Doc) :
    (ds.flatMap (fun d => (docName d, some "document") ::
        (citPairs d.2.1).map (fun q => (q.2, some q.1)))).map (fun p => p.1) =
      ds.flatMap (fun d => docName d :: citationStrings d.2.1) := by
  induction ds with
  | nil => rfl
  | cons d ds ih =>
    simp only [List.flatMap_cons, List.map_append, List.map_cons, List.map_map,
      Function.comp_def, ih, citationStrings]

/-- C4 amended: for documents with pairwise-distinct names, pairwise-disjoint
citation keys, and no document name equal to any citation key, the graph's
node list is exactly the document nodes interleaved with their citation
nodes, its node count is N plus the sum of per-document distinct citation
counts, every per-document citation key list is duplicate-free, and no edge
joins two document nodes (zero co-citation edges). -/
theorem C4_node_inventory (documents : List Doc)
    (hnames : (documents.map docName).Nodup)
    (hdisj : documents.Pairwise (fun d1 d2 =>
      ∀ c ∈ citationStrings d1.2.1, c ∉ citationStrings d2.2.1))
    (hcol : ∀ d1 ∈ documents, ∀ d2 ∈ documents,
      docName d1 ∉ citationStrings d2.2.1) :
    (build_citation_network documents).nodes.map (fun p => p.1) =
        documents.flatMap (fun d => docName d :: citationStrings d.2.1) ∧
      (build_citation_network documents).nodes.length =
        documents.length +
          (documents.map (fun d => (citationStrings d.2.1).length)).sum ∧
      (∀ d ∈ documents, (citationStrings d.2.1).Nodup) ∧
      (∀ e ∈ (build_citation_network documents).edges,
        ¬(e.1 ∈ documents.map docName ∧ e.2.1 ∈ documents.map docName)) := by
  have hpw : documents.Pairwise (fun d1 d2 => docName d1 ≠ docName d2 ∧
      (∀ c ∈ citationStrings d1.2.1, c ∉ citationStrings d2.2.1) ∧
      docName d1 ∉ citationStrings d2.2.1 ∧ docName d2 ∉ citationStrings d1.2.1) := by
    have h1 : documents.Pairwise (fun d1 d2 => docName d1 ≠ docName d2) :=
      List.pairwise_map.mp hnames
    have h3 : documents.Pairwise (fun d1 d2 =>
        docName d1 ∉ citationStrings d2.2.1 ∧ docName d2 ∉ citationStrings d1.2.1) := by
      apply List.pairwise_of_forall_mem_list
      intro d1 hd1 d2 hd2
      exact ⟨hcol d1 hd1 d2 hd2, hcol d2 hd2 d1 hd1⟩
    exact ((h1.and hdisj).and h3).imp (fun h => ⟨h.1.1, h.1.2, h.2⟩)
  have hphase1 := phase1_eq documents emptyGraph []
    (by intro d _; simp [emptyGraph])
    (by intro d _ c _; simp [emptyGraph])
    (by intro d hd; exact hcol d hd d hd)
    (by intro d _ e he; simp [emptyGraph] at he)
    (by intro d _ p hp; simp at hp)
    hpw
  have hshort : ∀ p ∈ citationToDocs
      ([] ++ documents.map (fun d => (docName d, citationStrings d.2.1))),
      p.2.length ≤ 1 := by
    unfold citationToDocs
    apply citationToDocs_short _ []
    · intro p hp
      simp at hp
    · intro p hp
      simp at hp
    · intro q hq
      rw [List.nil_append, List.mem_map] at hq
      obtain ⟨d, hd, he⟩ := hq
      rw [← he]
      exact citationStrings_nodup d.2.1
    · rw [List.nil_append]
      rw [List.pairwise_map]
      exact hdisj
  have hbuild : build_citation_network documents =
      ⟨documents.flatMap (fun d => (docName d, some "document") ::
          (citPairs d.2.1).map (fun q => (q.2, some q.1))),
        documents.flatMap (fun d =>
          (citPairs d.2.1).map (fun q => (docName d, q.2, none)))⟩ := by
    unfold build_citation_network
    rw [hphase1]
    dsimp only
    rw [phase3_noop _ _ hshort]
    simp [emptyGraph]
  refine ⟨?_, ?_, fun d _ => citationStrings_nodup d.2.1, ?_⟩
  · rw [hbuild]
    exact map_fst_inventory documents
  · rw [hbuild]
    have hlen : (documents.flatMap (fun d => (docName d, some "document") ::
        (citPairs d.2.1).map (fun q => (q.2, some q.1)))).length =
        (documents.flatMap (fun d => docName d :: citationStrings d.2.1)).length := by
      rw [← map_fst_inventory documents, List.length_map]
    dsimp only
    rw [hlen, flatMap_inventory_length]
  · rw [hbuild]
    intro e he
    dsimp only at he
    rw [List.mem_flatMap] at he
    obtain ⟨d, hd, hmem⟩ := he
    rw [List.mem_map] at hmem
    obtain ⟨q, hq, hqe⟩ := hmem
    rintro ⟨-, h2⟩
    rw [List.mem_map] at h2
    obtain ⟨d2, hd2, hd2e⟩ := h2
    have hc : e.2.1 ∈ citationStrings d.2.1 := by
      have : e.2.1 = q.2 := by rw [← hqe]
      rw [this]
      exact List.mem_map_of_mem (fun q => q.2) hq
    exact hcol d2 hd2 d hd (hd2e ▸ hc)

/-- C4 witness: two documents with distinct names and disjoint citations
instantiate the amended inventory theorem. -/
theorem C4_witness :
    (build_citation_network c4wdocs).nodes.map (fun p => p.1) =
        c4wdocs.flatMap (fun d => docName d :: citationStrings d.2.1) ∧
      (build_citation_network c4wdocs).nodes.length =
        c4wdocs.length + (c4wdocs.map (fun d => (citationStrings d.2.1).length)).sum ∧
      (∀ d ∈ c4wdocs, (citationStrings d.2.1).Nodup) ∧
      (∀ e ∈ (build_citation_network c4wdocs).edges,
        ¬(e.1 ∈ c4wdocs.map docName ∧ e.2.1 ∈ c4wdocs.map docName)) :=
  C4_node_inventory c4wdocs (by decide) (by decide) (by decide)

end LegalAnalyzer
